import Mathlib

/-!
Verification development for the yason library (a compact binary encoding for
JSON-shaped documents with an incremental builder, lazy reader, path-query
engine and text formatters).  The Rust sources are shallowly embedded: machine
integers become `Nat` with explicit wrap-around arithmetic where it matters,
byte buffers and UTF-8 strings become `List Nat` of byte values, fallible
operations return `Except`, and the stateful builders become explicit state
passing.
-/

/-- Keys and strings are raw UTF-8 byte sequences (Rust `str`), one `Nat` per byte. -/
abbrev ByteKey := List Nat

/-- Lexicographic comparison of raw byte sequences, the behaviour of Rust
`str::cmp` on the underlying bytes. -/
def cmpBytes : List Nat → List Nat → Ordering
  | [], [] => .eq
  | [], _ :: _ => .lt
  | _ :: _, [] => .gt
  | a :: xs, b :: ys => (compare a b).then (cmpBytes xs ys)

/-- Embedding of `cmp_key` (src/util.rs): compare first by byte length and
only on equal lengths lexicographically by raw byte sequence (the source's
three-way `match` is exactly `Ordering.then`). -/
def cmp_key (left right : ByteKey) : Ordering :=
  (compare left.length right.length).then (cmpBytes left right)

/-- The non-strict order induced by `cmp_key`. -/
def keyLe (a b : ByteKey) : Prop := cmp_key a b ≠ .gt

instance : DecidablePred fun p : ByteKey × ByteKey => keyLe p.1 p.2 := by
  intro p; unfold keyLe; infer_instance

instance (a b : ByteKey) : Decidable (keyLe a b) := by
  unfold keyLe; infer_instance

theorem cmpBytes_eq_iff : ∀ {a b : List Nat}, cmpBytes a b = .eq ↔ a = b := by
  intro a
  induction a with
  | nil => intro b; cases b <;> simp [cmpBytes]
  | cons x xs ih =>
    intro b
    cases b with
    | nil => simp [cmpBytes]
    | cons y ys =>
      rcases h : compare x y with _ | _ | _
      · have hlt : x < y := Nat.compare_eq_lt.mp h
        simp only [cmpBytes, h, Ordering.then]
        constructor
        · intro hx; exact absurd hx (by decide)
        · intro hx
          injection hx with h1 h2
          omega
      · have heq : x = y := Nat.compare_eq_eq.mp h
        subst heq
        simp [cmpBytes, h, Ordering.then, ih]
      · have hgt : y < x := Nat.compare_eq_gt.mp h
        simp only [cmpBytes, h, Ordering.then]
        constructor
        · intro hx; exact absurd hx (by decide)
        · intro hx
          injection hx with h1 h2
          omega

theorem cmpBytes_swap : ∀ (a b : List Nat), (cmpBytes a b).swap = cmpBytes b a := by
  intro a
  induction a with
  | nil => intro b; cases b <;> simp [cmpBytes, Ordering.swap]
  | cons x xs ih =>
    intro b
    cases b with
    | nil => simp [cmpBytes, Ordering.swap]
    | cons y ys =>
      rcases h : compare x y with _ | _ | _
      · have hyx : compare y x = .gt := Nat.compare_eq_gt.mpr (Nat.compare_eq_lt.mp h)
        simp [cmpBytes, h, hyx, Ordering.then, Ordering.swap]
      · have hxy : x = y := Nat.compare_eq_eq.mp h
        have hyx : compare y x = .eq := Nat.compare_eq_eq.mpr hxy.symm
        simp [cmpBytes, h, hyx, Ordering.then, ih]
      · have hyx : compare y x = .lt := Nat.compare_eq_lt.mpr (Nat.compare_eq_gt.mp h)
        simp [cmpBytes, h, hyx, Ordering.then, Ordering.swap]

theorem cmpBytes_lt_trans : ∀ {a b c : List Nat},
    cmpBytes a b = .lt → cmpBytes b c = .lt → cmpBytes a c = .lt := by
  intro a
  induction a with
  | nil =>
    intro b c hab hbc
    cases c with
    | nil =>
      cases b with
      | nil => simp [cmpBytes] at hab
      | cons y ys => simp [cmpBytes] at hbc
    | cons z zs => simp [cmpBytes]
  | cons x xs ih =>
    intro b c hab hbc
    cases b with
    | nil => simp [cmpBytes] at hab
    | cons y ys =>
      cases c with
      | nil => simp [cmpBytes] at hbc
      | cons z zs =>
        simp only [cmpBytes] at hab hbc ⊢
        rcases hxy : compare x y with _ | _ | _ <;> rw [hxy] at hab <;>
          simp only [Ordering.then] at hab
        · rcases hyz : compare y z with _ | _ | _ <;> rw [hyz] at hbc <;>
            simp only [Ordering.then] at hbc
          · have hxz : compare x z = .lt := by
              have h1 := Nat.compare_eq_lt.mp hxy
              have h2 := Nat.compare_eq_lt.mp hyz
              exact Nat.compare_eq_lt.mpr (by omega)
            simp [hxz, Ordering.then]
          · have hxz : compare x z = .lt := by
              have h1 := Nat.compare_eq_lt.mp hxy
              have h2 := Nat.compare_eq_eq.mp hyz
              exact Nat.compare_eq_lt.mpr (by omega)
            simp [hxz, Ordering.then]
          · exact absurd hbc (by decide)
        · rcases hyz : compare y z with _ | _ | _ <;> rw [hyz] at hbc <;>
            simp only [Ordering.then] at hbc
          · have hxz : compare x z = .lt := by
              have h1 := Nat.compare_eq_eq.mp hxy
              have h2 := Nat.compare_eq_lt.mp hyz
              exact Nat.compare_eq_lt.mpr (by omega)
            simp [hxz, Ordering.then]
          · have hxz : compare x z = .eq := by
              have h1 := Nat.compare_eq_eq.mp hxy
              have h2 := Nat.compare_eq_eq.mp hyz
              exact Nat.compare_eq_eq.mpr (by omega)
            simp only [hxz, Ordering.then]
            exact ih hab hbc
          · exact absurd hbc (by decide)
        · exact absurd hab (by decide)

theorem cmp_key_eq_iff {a b : ByteKey} : cmp_key a b = .eq ↔ a = b := by
  unfold cmp_key
  rcases h : compare a.length b.length with _ | _ | _
  · simp only [Ordering.then]
    constructor
    · intro hx; exact absurd hx (by decide)
    · intro hx; subst hx; simp [Nat.compare_eq_eq.mpr rfl] at h
  · simp only [Ordering.then]
    exact cmpBytes_eq_iff
  · simp only [Ordering.then]
    constructor
    · intro hx; exact absurd hx (by decide)
    · intro hx; subst hx; simp [Nat.compare_eq_eq.mpr rfl] at h

theorem cmp_key_swap (a b : ByteKey) : (cmp_key a b).swap = cmp_key b a := by
  unfold cmp_key
  rcases h : compare a.length b.length with _ | _ | _
  · have h2 : compare b.length a.length = .gt :=
      Nat.compare_eq_gt.mpr (Nat.compare_eq_lt.mp h)
    simp [h2, Ordering.then, Ordering.swap]
  · have h2 : compare b.length a.length = .eq :=
      Nat.compare_eq_eq.mpr (Nat.compare_eq_eq.mp h).symm
    simp [h2, Ordering.then, cmpBytes_swap]
  · have h2 : compare b.length a.length = .lt :=
      Nat.compare_eq_lt.mpr (Nat.compare_eq_gt.mp h)
    simp [h2, Ordering.then, Ordering.swap]

theorem cmp_key_gt_iff_lt {a b : ByteKey} : cmp_key a b = .gt ↔ cmp_key b a = .lt := by
  constructor
  · intro h
    have := cmp_key_swap a b
    rw [h] at this
    simpa [Ordering.swap] using this.symm
  · intro h
    have := cmp_key_swap b a
    rw [h] at this
    simpa [Ordering.swap] using this.symm

theorem cmp_key_lt_trans {a b c : ByteKey} :
    cmp_key a b = .lt → cmp_key b c = .lt → cmp_key a c = .lt := by
  intro hab hbc
  unfold cmp_key at hab hbc ⊢
  rcases h1 : compare a.length b.length with _ | _ | _ <;> rw [h1] at hab <;>
    simp only [Ordering.then] at hab
  · rcases h2 : compare b.length c.length with _ | _ | _ <;> rw [h2] at hbc <;>
      simp only [Ordering.then] at hbc
    · have l1 : a.length < b.length := Nat.compare_eq_lt.mp h1
      have l2 : b.length < c.length := Nat.compare_eq_lt.mp h2
      simp [Nat.compare_eq_lt.mpr (by omega : a.length < c.length), Ordering.then]
    · have l1 : a.length < b.length := Nat.compare_eq_lt.mp h1
      have l2 : b.length = c.length := Nat.compare_eq_eq.mp h2
      simp [Nat.compare_eq_lt.mpr (by omega : a.length < c.length), Ordering.then]
    · exact absurd hbc (by decide)
  · rcases h2 : compare b.length c.length with _ | _ | _ <;> rw [h2] at hbc <;>
      simp only [Ordering.then] at hbc
    · have l1 : a.length = b.length := Nat.compare_eq_eq.mp h1
      have l2 : b.length < c.length := Nat.compare_eq_lt.mp h2
      simp [Nat.compare_eq_lt.mpr (by omega : a.length < c.length), Ordering.then]
    · have l1 : a.length = b.length := Nat.compare_eq_eq.mp h1
      have l2 : b.length = c.length := Nat.compare_eq_eq.mp h2
      simp only [Nat.compare_eq_eq.mpr (by omega : a.length = c.length), Ordering.then]
      exact cmpBytes_lt_trans hab hbc
    · exact absurd hbc (by decide)
  · exact absurd hab (by decide)

theorem keyLe_trans {a b c : ByteKey} (hab : keyLe a b) (hbc : keyLe b c) : keyLe a c := by
  unfold keyLe at *
  rcases h1 : cmp_key a b with hc | hc | hc <;> rcases h2 : cmp_key b c with hd | hd | hd
  all_goals first
    | (exact absurd h1 hab)
    | (exact absurd h2 hbc)
    | (have hb : a = b := cmp_key_eq_iff.mp h1
       subst hb
       simp [h2])
    | (have hb : b = c := cmp_key_eq_iff.mp h2
       subst hb
       simp [h1])
    | (have hlt2 := cmp_key_lt_trans h1 h2
       simp [hlt2])

theorem keyLe_of_lt {a b : ByteKey} (h : cmp_key a b = .lt) : keyLe a b := by
  unfold keyLe; simp [h]

theorem keyLe_of_eq {a b : ByteKey} (h : cmp_key a b = .eq) : keyLe a b := by
  unfold keyLe; simp [h]

theorem keyLe_total (a b : ByteKey) : keyLe a b ∨ keyLe b a := by
  unfold keyLe
  rcases h : cmp_key a b with hc | hc | hc
  · left; simp
  · left; simp
  · right
    have := cmp_key_gt_iff_lt.mp h
    simp [this]

/-- Transitivity shape used by binary-search reasoning: an element `≤` another
element that is strictly below the target is itself strictly below the target. -/
theorem cmp_lt_of_le_of_lt {a b t : ByteKey} (hab : keyLe a b)
    (hbt : cmp_key b t = .lt) : cmp_key a t = .lt := by
  rcases h : cmp_key a b with hc | hc | hc
  · exact cmp_key_lt_trans h hbt
  · have : a = b := cmp_key_eq_iff.mp h
    subst this; exact hbt
  · exact absurd h hab

/-- An element `≥` another element that is strictly above the target is itself
strictly above the target. -/
theorem cmp_gt_of_ge_of_gt {a b t : ByteKey} (hab : keyLe a b)
    (hat : cmp_key a t = .gt) : cmp_key b t = .gt := by
  by_contra hb
  have hta : cmp_key t a = .lt := cmp_key_gt_iff_lt.mp hat
  rcases h : cmp_key b t with hc | hc | hc
  · have : cmp_key t b = .gt := cmp_key_gt_iff_lt.mpr h
    have h1 : cmp_key b a = .lt := cmp_key_lt_trans h hta
    have h2 : cmp_key a b = .gt := cmp_key_gt_iff_lt.mpr h1
    exact absurd h2 hab
  · have : b = t := cmp_key_eq_iff.mp h
    subst this
    have h2 : cmp_key a b = .gt := cmp_key_gt_iff_lt.mpr hta
    exact absurd h2 hab
  · exact hb h

/-! ## Varint codec (src/util.rs)

Bitwise operators are rendered arithmetically on `Nat`: `x & 0x7f` is
`x % 128`, `x >> 7` is `x / 128`, `ch |= 0x80` adds `128` to a value below
`128`, and `res |= ch << shift` adds `ch * 2 ^ shift` into disjoint byte
positions. -/

/-- Shift table used by `encode_varint`. -/
def SHIFT : List Nat := [24, 16, 8, 0]

/-- One pass of the `encode_varint` loop.  Returns the accumulated big-endian
word `res` and the number of emitted bytes `len`; falling off the end of the
shift list leaves `len` at its initial `0` (the Rust loop only sets `len` when
it breaks). -/
def evLoop : List Nat → Nat → Nat → Nat → Nat × Nat
  | [], _value, res, _i => (res, 0)
  | shift :: rest, value, res, i =>
    let ch := value % 128
    let value2 := value / 128
    let ch2 := if value2 ≠ 0 then ch + 128 else ch
    let res2 := res + ch2 * 2 ^ shift
    if value2 = 0 then (res2, i + 1) else evLoop rest value2 res2 (i + 1)

/-- Big-endian byte decomposition of a `u32`, Rust `u32::to_be_bytes`. -/
def toBeBytes (x : Nat) : List Nat :=
  [x / 2 ^ 24 % 256, x / 2 ^ 16 % 256, x / 2 ^ 8 % 256, x % 256]

/-- Embedding of `encode_varint` (src/util.rs). -/
def encode_varint (value : Nat) (buf : List Nat) : List Nat :=
  if value < 128 then buf ++ [value % 256]
  else
    let p := evLoop SHIFT value 0 0
    buf ++ (toBeBytes p.1).take p.2

/-- Errors surfaced by the reader embedding. -/
inductive YasonError where
  | IndexOutOfBounds (len index : Nat)
  | MultiValuesWithoutWrapper
  | InvalidPathExpression
  | Unreachable
  deriving DecidableEq, Repr

/-- Decidable equality for `Except` results, so concrete runs can be checked
by `decide`. -/
instance exceptDecEq {e a : Type} [DecidableEq e] [DecidableEq a] :
    DecidableEq (Except e a)
  | .error x, .error y =>
    match decEq x y with
    | isTrue h => isTrue (by rw [h])
    | isFalse h => isFalse (by intro hc; injection hc; contradiction)
  | .error _, .ok _ => isFalse (fun hc => Except.noConfusion hc)
  | .ok _, .error _ => isFalse (fun hc => Except.noConfusion hc)
  | .ok x, .ok y =>
    match decEq x y with
    | isTrue h => isTrue (by rw [h])
    | isFalse h => isFalse (by intro hc; injection hc; contradiction)

/-- Maximum number of varint bytes (`MAX_DATA_LENGTH_SIZE`, src/binary.rs). -/
def MAX_DATA_LENGTH_SIZE : Nat := 4

/-- The `decode_varint` loop; `rem` counts the remaining allowed iterations and
`i` the current byte offset.  Exhausting the iteration budget models the
`unreachable!` panic. -/
def dvLoop (buf : List Nat) (index : Nat) : Nat → Nat → Nat → Except YasonError (Nat × Nat)
  | 0, _i, _acc => .error .Unreachable
  | rem + 1, i, acc =>
    match buf[index + i]? with
    | none => .error (.IndexOutOfBounds buf.length (index + i))
    | some byte =>
      let acc2 := acc + byte % 128 * 2 ^ (7 * i)
      if byte / 128 % 2 = 0 then .ok (acc2, i + 1)
      else dvLoop buf index rem (i + 1) acc2

/-- Embedding of `decode_varint` (src/util.rs). -/
def decode_varint (buf : List Nat) (index : Nat) : Except YasonError (Nat × Nat) :=
  dvLoop buf index MAX_DATA_LENGTH_SIZE 0 0

example : encode_varint 10 [] = [10] := by decide
example : encode_varint 500 [] = [244, 3] := by decide
example : encode_varint 20000 [] = [160, 156, 1] := by decide
example : encode_varint 250000000 [] = [128, 229, 154, 119] := by decide
example : decode_varint [244, 3] 0 = .ok (500, 2) := by rfl
example : decode_varint [128, 229, 154, 119] 0 = .ok (250000000, 4) := by rfl

/-! ## JSON string escaping (src/format/mod.rs)

`ESCAPE` is the 256-entry lookup table; an empty list is the passthrough
marker (`___` in the source).  `uEsc b` spells the six-character `\uXXXX`
replacement with uppercase hex digits, exactly as the `U00`–`U1F`/`U7F`
constants do. -/

/-- ASCII code of an uppercase hexadecimal digit. -/
def hexUpper (n : Nat) : Nat := if n < 10 then 48 + n else 55 + n

/-- Six-byte `\uXXXX` escape sequence for a byte. -/
def uEsc (b : Nat) : List Nat := [92, 117, 48, 48, hexUpper (b / 16), hexUpper (b % 16)]

/-- The escape lookup table (256 entries); rows mirror the source table.  The
named constants of the source appear literally: `BBB = [92, 98]`, `TTT`,
`NNN`, `FFF`, `RRR`, `QQU = [92, 34]`, `SSS = [47]`, `BBS = [92, 92]`. -/
def ESCAPE : List (List Nat) :=
  [uEsc 0, uEsc 1, uEsc 2, uEsc 3, uEsc 4, uEsc 5, uEsc 6, uEsc 7,
   [92, 98], [92, 116], [92, 110], uEsc 11, [92, 102], [92, 114], uEsc 14, uEsc 15] ++
  [uEsc 16, uEsc 17, uEsc 18, uEsc 19, uEsc 20, uEsc 21, uEsc 22, uEsc 23,
   uEsc 24, uEsc 25, uEsc 26, uEsc 27, uEsc 28, uEsc 29, uEsc 30, uEsc 31] ++
  ([[], [], [92, 34]] ++ List.replicate 12 [] ++ [[47]]) ++
  List.replicate 16 [] ++
  List.replicate 16 [] ++
  (List.replicate 12 [] ++ [[92, 92]] ++ List.replicate 3 []) ++
  List.replicate 16 [] ++
  (List.replicate 15 [] ++ [uEsc 127]) ++
  List.replicate 128 []

set_option maxRecDepth 4000 in
example : ESCAPE.length = 256 := by decide

example : ESCAPE.getD 0x5C [] = [92, 92] := by rfl
example : ESCAPE.getD 0x2F [] = [47] := by rfl
example : ESCAPE.getD 0x22 [] = [92, 34] := by rfl
example : ESCAPE.getD 0x7F [] = [92, 117, 48, 48, 55, 70] := by rfl

/-- The loop of `format_escaped_str` (src/format/mod.rs): `i` walks the byte
sequence, `start` marks the beginning of the pending passthrough chunk, `out`
is what has been written so far. -/
def fesLoop (bytes : List Nat) : Nat → Nat → Nat → List Nat → List Nat
  | 0, _i, start, out =>
    if start ≠ bytes.length then out ++ bytes.drop start else out
  | fuel + 1, i, start, out =>
    if i < bytes.length then
      let byte := bytes.getD i 0
      let esc := ESCAPE.getD byte []
      if esc = [] then fesLoop bytes fuel (i + 1) start out
      else
        let out2 := if start < i then out ++ ((bytes.drop start).take (i - start)) else out
        fesLoop bytes fuel (i + 1) (i + 1) (out2 ++ esc)
    else
      if start ≠ bytes.length then out ++ bytes.drop start else out

/-- Embedding of `format_escaped_str`: the full escaped output for a byte
sequence. -/
def format_escaped_str (value : List Nat) : List Nat := fesLoop value value.length 0 0 []

/-- What the escape pass does to a single byte: passthrough, or the table's
replacement sequence. -/
def escapedByte (b : Nat) : List Nat :=
  if ESCAPE.getD b [] = [] then [b] else ESCAPE.getD b []

/-! ## Builder (src/builder/mod.rs, src/builder/object.rs, src/builder/array.rs) -/

/-- Build-path errors (src/builder/mod.rs). -/
inductive BuildError where
  | TryReserveError
  | InnerUncompletedError
  | InconsistentElementCount (expected actual : Nat)
  | StringTooLong (len : Nat)
  | NestedTooDeeply
  deriving DecidableEq, Repr

/-- Maximum nested container depth (`MAX_NESTED_DEPTH`, src/builder/mod.rs). -/
def MAX_NESTED_DEPTH : Nat := 100

/-- Rust `slice::binary_search_by` over the offset slice `l`, with the
builder's collapse of `Ok(v)`/`Err(v)` both to `v`
(`InnerObjectBuilder::binary_search`).  `c` compares a probed element against
the search target. -/
def bsGo (c : Nat → Ordering) (l : List Nat) : Nat → Nat → Nat → Nat
  | 0, left, _right => left
  | fuel + 1, left, right =>
    if left < right then
      let mid := left + (right - left) / 2
      match c (l.getD mid 0) with
      | .lt => bsGo c l fuel (mid + 1) right
      | .gt => bsGo c l fuel left mid
      | .eq => mid
    else left

/-- Builder-side state of an object's key layout: `entries` is the physical
append order of the pushed keys (each key's bytes are written at the buffer
tail and never moved), `table` is the key-offset table as indices into
`entries`, and `keySorted` is the declared-sorted flag. -/
structure ObjBuilderState where
  entries : List ByteKey
  table : List Nat
  keySorted : Bool
  deriving DecidableEq, Repr

/-- A freshly opened object builder. -/
def emptyObjBuilder (keySorted : Bool) : ObjBuilderState :=
  { entries := [], table := [], keySorted := keySorted }

/-- Keys read off the key-offset table in table order; this is what key
iteration and binary search observe. -/
def tableKeys (s : ObjBuilderState) : List ByteKey :=
  s.table.map fun off => s.entries.getD off []

/-- Embedding of `InnerObjectBuilder::binary_search`: locate the insertion
slot for `target` in the key-offset table, comparing the key each offset
points at against the target with `cmp_key`. -/
def InnerObjectBuilder.binary_search (target : ByteKey) (entries : List ByteKey)
    (table : List Nat) : Nat :=
  bsGo (fun off => cmp_key (entries.getD off []) target) table table.length 0 table.length

/-- Key placement of `InnerObjectBuilder::push_key_value_by`: in declared
sorted mode the new key's offset fills the next table slot in append order; in
unsorted mode the table tail from the binary-search position is shifted one
slot and the new offset written there.  In both modes the key bytes go to the
buffer tail. -/
def pushKey (s : ObjBuilderState) (key : ByteKey) : ObjBuilderState :=
  if s.keySorted then
    { s with entries := s.entries ++ [key], table := s.table ++ [s.entries.length] }
  else
    let pos := InnerObjectBuilder.binary_search key s.entries s.table
    { s with entries := s.entries ++ [key], table := s.table.insertIdx pos s.entries.length }

/-- Push a sequence of keys in order. -/
def pushKeys (s : ObjBuilderState) (keys : List ByteKey) : ObjBuilderState :=
  keys.foldl pushKey s

/-- Embedding of `InnerObjectBuilder::finish` (count and depth bookkeeping;
the byte-level size back-patch carries no information here): the depth
snapshot must equal the live depth, and the pushed count must equal the
declared count.  The `debug_assert!(self.key_sorted())` is compiled out of
release builds, so it imposes nothing.  On success the sealed layout is
returned. -/
def objectFinish (s : ObjBuilderState) (element_count : Nat) (depth live_depth : Nat) :
    Except BuildError ObjBuilderState :=
  if depth ≠ live_depth then .error .InnerUncompletedError
  else if s.table.length ≠ element_count then
    .error (.InconsistentElementCount element_count s.table.length)
  else .ok s

/-- Array-builder bookkeeping relevant to element counting and nesting depth
(src/builder/array.rs); `current_depth` is the builder's snapshot of the
shared depth counter at its creation. -/
structure ArrState where
  element_count : Nat
  value_count : Nat
  current_depth : Nat
  deriving DecidableEq, Repr

/-- Embedding of `InnerArrayBuilder::try_new`: reject when the shared depth
counter has already reached `MAX_NESTED_DEPTH`, otherwise increment it. -/
def InnerArrayBuilder.try_new (element_count : Nat) (total_depth : Nat) :
    Except BuildError (ArrState × Nat) :=
  if total_depth ≥ MAX_NESTED_DEPTH then .error .NestedTooDeeply
  else .ok ({ element_count := element_count, value_count := 0,
              current_depth := total_depth + 1 }, total_depth + 1)

/-- Embedding of the `InnerArrayBuilder::push_value` bookkeeping: reject when
a descendant builder is still open, otherwise count the element. -/
def InnerArrayBuilder.push_value (s : ArrState) (live : Nat) :
    Except BuildError (ArrState × Nat) :=
  if s.current_depth ≠ live then .error .InnerUncompletedError
  else .ok ({ s with value_count := s.value_count + 1 }, live)

/-- Embedding of `InnerArrayBuilder::push_array`: record the value entry on
the parent, then open the nested array builder. -/
def InnerArrayBuilder.push_array (s : ArrState) (live : Nat) (element_count : Nat) :
    Except BuildError (ArrState × ArrState × Nat) := do
  let (s2, live2) ← InnerArrayBuilder.push_value s live
  let (child, live3) ← InnerArrayBuilder.try_new element_count live2
  return (s2, child, live3)

/-- Embedding of `InnerArrayBuilder::finish`: the depth check comes first,
then the element-count check; on success the shared depth counter is
decremented. -/
def InnerArrayBuilder.finish (s : ArrState) (live : Nat) : Except BuildError Nat :=
  if s.current_depth ≠ live then .error .InnerUncompletedError
  else if s.value_count ≠ s.element_count then
    .error (.InconsistentElementCount s.element_count s.value_count)
  else .ok (live - 1)

/-- Modelled from the spec: the object builder's depth gate.  The current
`InnerObjectBuilder::try_new` — the revision that threads the shared `Depth`
counter exactly as `InnerArrayBuilder::try_new` does — is missing from the
source snapshot: `builder/object.rs` there is an older revision referencing a
`BytesWrapper` type that exists nowhere in the sources.  Per the spec,
"Creation when depth is already 100 is rejected" with `NestedTooDeeply`. -/
def InnerObjectBuilder.try_new (keySorted : Bool) (total_depth : Nat) :
    Except BuildError (ObjBuilderState × Nat) :=
  if total_depth ≥ MAX_NESTED_DEPTH then .error .NestedTooDeeply
  else .ok (emptyObjBuilder keySorted, total_depth + 1)

/-! ## Correctness of the builder's key placement -/

/-- Numeric rank of an `Ordering` (`lt < eq < gt`), used to phrase that a
comparator is monotone along a sorted slice. -/
def ordRank : Ordering → Nat
  | .lt => 0
  | .eq => 1
  | .gt => 2

theorem ordRank_le_two (o : Ordering) : ordRank o ≤ 2 := by
  cases o <;> simp [ordRank]

theorem rank_mono {a b t : ByteKey} (hab : keyLe a b) :
    ordRank (cmp_key a t) ≤ ordRank (cmp_key b t) := by
  rcases hbt : cmp_key b t with _ | _ | _
  · have := cmp_lt_of_le_of_lt hab hbt
    simp [this, ordRank]
  · have hb : b = t := cmp_key_eq_iff.mp hbt
    subst hb
    rcases hat : cmp_key a b with _ | _ | _
    · simp [ordRank]
    · simp [ordRank]
    · exact absurd hat hab
  · exact le_trans (ordRank_le_two _) (by simp [ordRank])

theorem bsGo_bounds (c : Nat → Ordering) (l : List Nat) :
    ∀ fuel left right, left ≤ right →
      left ≤ bsGo c l fuel left right ∧ bsGo c l fuel left right ≤ right := by
  intro fuel
  induction fuel with
  | zero =>
    intro left right h
    simp only [bsGo]
    omega
  | succ n ih =>
    intro left right h
    simp only [bsGo]
    by_cases hlt : left < right
    · simp only [if_pos hlt]
      rcases hc : c (l.getD (left + (right - left) / 2) 0) with _ | _ | _ <;> simp only [hc]
      · have h1 := ih (left + (right - left) / 2 + 1) right (by omega)
        omega
      · omega
      · have h1 := ih left (left + (right - left) / 2) (by omega)
        omega
    · simp only [if_neg hlt]
      omega

/-- Binary-search postcondition on a slice whose comparator is monotone:
everything strictly below the returned position compares `≤` the target and
everything at or above it compares `≥` the target.  The fuel must cover the
window size, as it does at the `binary_search` entry point. -/
theorem bsGo_spec (c : Nat → Ordering) (l : List Nat)
    (mono : ∀ i j, i ≤ j → j < l.length → ordRank (c (l.getD i 0)) ≤ ordRank (c (l.getD j 0))) :
    ∀ fuel left right, right - left ≤ fuel → right ≤ l.length →
      (∀ i, i < left → c (l.getD i 0) = .lt) →
      (∀ i, right ≤ i → i < l.length → c (l.getD i 0) = .gt) →
      (∀ i, i < bsGo c l fuel left right → c (l.getD i 0) ≠ .gt) ∧
      (∀ i, bsGo c l fuel left right ≤ i → i < l.length → c (l.getD i 0) ≠ .lt) := by
  intro fuel
  induction fuel with
  | zero =>
    intro left right hf hr hlo hhi
    simp only [bsGo]
    constructor
    · intro i hi
      rw [hlo i hi]
      simp
    · intro i hi hil
      rw [hhi i (by omega) hil]
      simp
  | succ n ih =>
    intro left right hf hr hlo hhi
    simp only [bsGo]
    by_cases hlt : left < right
    · simp only [if_pos hlt]
      rcases hc : c (l.getD (left + (right - left) / 2) 0) with _ | _ | _ <;> simp only [hc]
      · refine ih (left + (right - left) / 2 + 1) right (by omega) hr ?_ hhi
        intro i hi
        rcases Nat.lt_or_ge i left with h | h
        · exact hlo i h
        · have hmidlen : left + (right - left) / 2 < l.length := by omega
          have hrk := mono i (left + (right - left) / 2) (by omega) hmidlen
          rw [hc] at hrk
          rcases hci : c (l.getD i 0) with _ | _ | _
          · rfl
          · rw [hci] at hrk; simp [ordRank] at hrk
          · rw [hci] at hrk; simp [ordRank] at hrk
      · have hmidlen : left + (right - left) / 2 < l.length := by omega
        constructor
        · intro i hi
          have hrk := mono i (left + (right - left) / 2) (by omega) hmidlen
          rw [hc] at hrk
          rcases hci : c (l.getD i 0) with _ | _ | _
          · simp
          · simp
          · rw [hci] at hrk; simp [ordRank] at hrk
        · intro i hi hil
          have hrk := mono (left + (right - left) / 2) i hi hil
          rw [hc] at hrk
          rcases hci : c (l.getD i 0) with _ | _ | _
          · rw [hci] at hrk; simp [ordRank] at hrk
          · simp
          · simp
      · refine ih left (left + (right - left) / 2) (by omega) (by omega) hlo ?_
        intro i hi hil
        have hrk := mono (left + (right - left) / 2) i hi hil
        rw [hc] at hrk
        rcases hci : c (l.getD i 0) with _ | _ | _
        · rw [hci] at hrk; simp [ordRank] at hrk
        · rw [hci] at hrk; simp [ordRank] at hrk
        · rfl
    · simp only [if_neg hlt]
      constructor
      · intro i hi
        rw [hlo i hi]
        simp
      · intro i hi hil
        rw [hhi i (by omega) hil]
        simp

theorem insertIdx_eq_take_cons_drop {α : Type} (a : α) :
    ∀ (p : Nat) (l : List α), p ≤ l.length →
      l.insertIdx p a = l.take p ++ a :: l.drop p := by
  intro p
  induction p with
  | zero => intro l _h; simp [List.insertIdx]
  | succ n ih =>
    intro l hl
    cases l with
    | nil => simp at hl
    | cons x xs =>
      simp only [List.insertIdx_succ_cons, List.take_succ_cons, List.drop_succ_cons,
        List.cons_append, List.cons.injEq, true_and]
      exact ih xs (by simpa using hl)

theorem map_insertIdx {α β : Type} (f : α → β) (a : α) :
    ∀ (p : Nat) (l : List α),
      (l.insertIdx p a).map f = (l.map f).insertIdx p (f a) := by
  intro p
  induction p with
  | zero => intro l; simp [List.insertIdx]
  | succ n ih =>
    intro l
    cases l with
    | nil => simp [List.insertIdx]
    | cons x xs =>
      simp only [List.insertIdx_succ_cons, List.map_cons]
      rw [ih xs]

/-- Inserting a key at a position where everything before is `≤` it and
everything from the position on is `≥` it preserves sortedness. -/
theorem pairwise_insertIdx (l : List ByteKey) (t : ByteKey) (p : Nat) (hp : p ≤ l.length)
    (hs : l.Pairwise keyLe)
    (h1 : ∀ i, i < p → (hi : i < l.length) → keyLe (l.get ⟨i, hi⟩) t)
    (h2 : ∀ i, p ≤ i → (hi : i < l.length) → keyLe t (l.get ⟨i, hi⟩)) :
    (l.insertIdx p t).Pairwise keyLe := by
  rw [insertIdx_eq_take_cons_drop t p l hp]
  rw [List.pairwise_append]
  refine ⟨hs.sublist (List.take_sublist p l), ?_, ?_⟩
  · rw [List.pairwise_cons]
    refine ⟨?_, hs.sublist (List.drop_sublist p l)⟩
    intro b hb
    rw [List.mem_iff_getElem] at hb
    obtain ⟨j, hj, hbj⟩ := hb
    have hlen : p + j < l.length := by
      have := hj
      simp only [List.length_drop] at this
      omega
    have : b = l.get ⟨p + j, hlen⟩ := by
      rw [← hbj]
      simp [List.getElem_drop]
    rw [this]
    exact h2 (p + j) (by omega) hlen
  · intro a ha b hb
    rw [List.mem_iff_getElem] at ha
    obtain ⟨i, hi, hai⟩ := ha
    have hilen : i < l.length := by
      have := hi
      simp only [List.length_take] at this
      omega
    have hip : i < p := by
      have := hi
      simp only [List.length_take] at this
      omega
    have hae : a = l.get ⟨i, hilen⟩ := by
      rw [← hai]
      simp [List.getElem_take]
    rcases List.mem_cons.mp hb with hbt | hbd
    · rw [hae, hbt]
      exact h1 i hip hilen
    · rw [List.mem_iff_getElem] at hbd
      obtain ⟨j, hj, hbj⟩ := hbd
      have hlen : p + j < l.length := by
        have := hj
        simp only [List.length_drop] at this
        omega
      have hbe : b = l.get ⟨p + j, hlen⟩ := by
        rw [← hbj]
        simp [List.getElem_drop]
      rw [hae, hbe]
      rw [List.pairwise_iff_getElem] at hs
      exact hs i (p + j) hilen hlen (by omega)

/-- Well-formedness of the builder state: every table offset points at an
existing entry. -/
def ObjWF (s : ObjBuilderState) : Prop := ∀ off ∈ s.table, off < s.entries.length

/-- Sortedness of a key sequence under the `cmp_key` order. -/
def sortedKeys (ks : List ByteKey) : Prop := ks.Pairwise keyLe

instance (ks : List ByteKey) : Decidable (sortedKeys ks) := by
  unfold sortedKeys
  infer_instance

theorem keyLe_refl (a : ByteKey) : keyLe a a := by
  unfold keyLe
  rw [cmp_key_eq_iff.mpr rfl]
  simp

theorem keyLe_of_not_lt {a b : ByteKey} (h : cmp_key a b ≠ .lt) : keyLe b a := by
  rcases hc : cmp_key a b with _ | _ | _
  · exact absurd hc h
  · have : a = b := cmp_key_eq_iff.mp hc
    subst this
    exact keyLe_refl a
  · exact keyLe_of_lt (cmp_key_gt_iff_lt.mp hc)

theorem keyLe_of_not_gt {a b : ByteKey} (h : cmp_key a b ≠ .gt) : keyLe a b := h

theorem tableKeys_getD (s : ObjBuilderState) (i : Nat) (hi : i < s.table.length) :
    (tableKeys s).getD i [] = s.entries.getD (s.table.getD i 0) [] := by
  unfold tableKeys
  rw [List.getD_eq_getElem _ _ (by simpa using hi), List.getElem_map,
    List.getD_eq_getElem _ _ hi]

theorem tableKeys_length (s : ObjBuilderState) : (tableKeys s).length = s.table.length := by
  unfold tableKeys
  simp

/-- Keys of old entries are unchanged when a new key is appended to the
physical buffer. -/
theorem getD_entries_append (entries : List ByteKey) (k : ByteKey) (off : Nat)
    (h : off < entries.length) :
    (entries ++ [k]).getD off [] = entries.getD off [] := by
  rw [List.getD_eq_getElem _ _ (by simp; omega), List.getD_eq_getElem _ _ h,
    List.getElem_append_left h]

theorem getD_entries_last (entries : List ByteKey) (k : ByteKey) :
    (entries ++ [k]).getD entries.length [] = k := by
  rw [List.getD_eq_getElem _ _ (by simp)]
  simp

/-- In unsorted mode, pushing a key inserts it into the observed key sequence
at the binary-search position. -/
theorem tableKeys_pushKey_unsorted (s : ObjBuilderState) (k : ByteKey)
    (hks : s.keySorted = false) (hwf : ObjWF s) :
    tableKeys (pushKey s k) =
      (tableKeys s).insertIdx (InnerObjectBuilder.binary_search k s.entries s.table) k := by
  unfold pushKey
  rw [hks]
  simp only [Bool.false_eq_true, if_false, tableKeys]
  rw [map_insertIdx]
  rw [getD_entries_last]
  congr 1
  apply List.map_congr_left
  intro off hoff
  exact getD_entries_append s.entries k off (hwf off hoff)

/-- In declared-sorted mode, pushing a key appends it to the observed key
sequence. -/
theorem tableKeys_pushKey_sorted (s : ObjBuilderState) (k : ByteKey)
    (hks : s.keySorted = true) (hwf : ObjWF s) :
    tableKeys (pushKey s k) = tableKeys s ++ [k] := by
  unfold pushKey
  rw [hks]
  simp only [if_true, tableKeys]
  rw [List.map_append]
  simp only [List.map_cons, List.map_nil]
  rw [getD_entries_last]
  congr 1
  apply List.map_congr_left
  intro off hoff
  exact getD_entries_append s.entries k off (hwf off hoff)

theorem pushKey_entries (s : ObjBuilderState) (k : ByteKey) :
    (pushKey s k).entries = s.entries ++ [k] := by
  unfold pushKey
  rcases s.keySorted <;> simp

theorem pushKey_keySorted (s : ObjBuilderState) (k : ByteKey) :
    (pushKey s k).keySorted = s.keySorted := by
  unfold pushKey
  rcases s.keySorted <;> simp

/-- The insertion position returned by the builder's binary search is inside
the table. -/
theorem binary_search_le (k : ByteKey) (entries : List ByteKey) (table : List Nat) :
    InnerObjectBuilder.binary_search k entries table ≤ table.length := by
  unfold InnerObjectBuilder.binary_search
  exact (bsGo_bounds _ table table.length 0 table.length (by omega)).2

theorem pushKey_wf (s : ObjBuilderState) (k : ByteKey) (hwf : ObjWF s) :
    ObjWF (pushKey s k) := by
  unfold ObjWF pushKey
  rcases hks : s.keySorted
  · simp only [Bool.false_eq_true, if_false]
    intro off hoff
    simp only [List.length_append, List.length_cons, List.length_nil]
    rw [insertIdx_eq_take_cons_drop _ _ _ (binary_search_le k s.entries s.table)] at hoff
    rcases List.mem_append.mp hoff with h | h
    · have := hwf off (List.mem_of_mem_take h)
      omega
    · rcases List.mem_cons.mp h with h2 | h2
      · omega
      · have := hwf off (List.mem_of_mem_drop h2)
        omega
  · simp only [if_true]
    intro off hoff
    simp only [List.length_append, List.length_cons, List.length_nil]
    rcases List.mem_append.mp hoff with h | h
    · have := hwf off h
      omega
    · rcases List.mem_cons.mp h with h2 | h2
      · omega
      · simp at h2

/-- The comparator the unsorted push hands to binary search is monotone over a
sorted table. -/
theorem push_mono (s : ObjBuilderState) (k : ByteKey)
    (hsort : sortedKeys (tableKeys s)) :
    ∀ i j, i ≤ j → j < s.table.length →
      ordRank (cmp_key (s.entries.getD (s.table.getD i 0) []) k) ≤
        ordRank (cmp_key (s.entries.getD (s.table.getD j 0) []) k) := by
  intro i j hij hj
  rcases Nat.eq_or_lt_of_le hij with h | h
  · subst h; exact le_refl _
  · rw [← tableKeys_getD s i (by omega), ← tableKeys_getD s j hj]
    apply rank_mono
    unfold sortedKeys at hsort
    rw [List.pairwise_iff_getElem] at hsort
    have h1 : i < (tableKeys s).length := by rw [tableKeys_length]; omega
    have h2 : j < (tableKeys s).length := by rw [tableKeys_length]; omega
    have := hsort i j h1 h2 h
    rwa [List.getD_eq_getElem _ _ h1, List.getD_eq_getElem _ _ h2]

theorem pushKey_unsorted_sorted (s : ObjBuilderState) (k : ByteKey)
    (hks : s.keySorted = false) (hwf : ObjWF s) (hsort : sortedKeys (tableKeys s)) :
    sortedKeys (tableKeys (pushKey s k)) := by
  rw [tableKeys_pushKey_unsorted s k hks hwf]
  have hlen := tableKeys_length s
  have hble := binary_search_le k s.entries s.table
  have hspec := bsGo_spec (fun off => cmp_key (s.entries.getD off []) k) s.table
    (push_mono s k hsort) s.table.length 0 s.table.length (by omega) (le_refl _)
    (by intro i hi; omega)
    (by intro i hi hil; omega)
  apply pairwise_insertIdx _ _ _ (by omega)
  · exact hsort
  · intro i hip hi
    have h1 := hspec.1 i hip
    have hit : i < s.table.length := by omega
    have : (tableKeys s).get ⟨i, hi⟩ = s.entries.getD (s.table.getD i 0) [] := by
      rw [← tableKeys_getD s i hit, List.getD_eq_getElem _ _ hi]
      simp
    rw [this]
    exact keyLe_of_not_gt h1
  · intro i hip hi
    have hit : i < s.table.length := by omega
    have h2 := hspec.2 i hip hit
    have : (tableKeys s).get ⟨i, hi⟩ = s.entries.getD (s.table.getD i 0) [] := by
      rw [← tableKeys_getD s i hit, List.getD_eq_getElem _ _ hi]
      simp
    rw [this]
    exact keyLe_of_not_lt h2

/-- Invariant of the unsorted build path: starting from any well-formed sorted
state, every push keeps the key-offset table sorted. -/
theorem pushKeys_unsorted_inv : ∀ (keys : List ByteKey) (s : ObjBuilderState),
    s.keySorted = false → ObjWF s → sortedKeys (tableKeys s) →
    ObjWF (pushKeys s keys) ∧ sortedKeys (tableKeys (pushKeys s keys)) ∧
      (pushKeys s keys).keySorted = false := by
  intro keys
  induction keys with
  | nil => intro s h1 h2 h3; exact ⟨h2, h3, h1⟩
  | cons k ks ih =>
    intro s h1 h2 h3
    have step1 := pushKey_wf s k h2
    have step2 := pushKey_unsorted_sorted s k h1 h2 h3
    have step3 : (pushKey s k).keySorted = false := by rw [pushKey_keySorted]; exact h1
    exact ih (pushKey s k) step3 step1 step2

theorem pushKeys_entries : ∀ (keys : List ByteKey) (s : ObjBuilderState),
    (pushKeys s keys).entries = s.entries ++ keys := by
  intro keys
  induction keys with
  | nil => intro s; simp [pushKeys]
  | cons k ks ih =>
    intro s
    show (pushKeys (pushKey s k) ks).entries = _
    rw [ih (pushKey s k), pushKey_entries]
    simp

theorem pushKeys_sorted_tableKeys : ∀ (keys : List ByteKey) (s : ObjBuilderState),
    s.keySorted = true → ObjWF s →
    tableKeys (pushKeys s keys) = tableKeys s ++ keys := by
  intro keys
  induction keys with
  | nil => intro s h1 h2; simp [pushKeys]
  | cons k ks ih =>
    intro s h1 h2
    show tableKeys (pushKeys (pushKey s k) ks) = _
    rw [ih (pushKey s k) (by rw [pushKey_keySorted]; exact h1) (pushKey_wf s k h2),
      tableKeys_pushKey_sorted s k h1 h2]
    simp

/-! ## Reader key lookup (src/yason/object.rs, `Object::find_key`) -/

/-- The binary-search loop of `Object::find_key` over the key sequence the
key-offset table exposes: byte lengths are compared first, then (on equal
lengths) the raw bytes, exactly as the source's four-way branch; a hit returns
the table index of the matching entry. -/
def findKeyGo (keys : List ByteKey) (target : ByteKey) : Nat → Nat → Nat → Option Nat
  | 0, _left, _right => none
  | fuel + 1, left, right =>
    if left < right then
      let mid := left + (right - left) / 2
      let cur := keys.getD mid []
      if cur.length < target.length then findKeyGo keys target fuel (mid + 1) right
      else if target.length < cur.length then findKeyGo keys target fuel left mid
      else if cmpBytes cur target = .lt then findKeyGo keys target fuel (mid + 1) right
      else if cmpBytes cur target = .gt then findKeyGo keys target fuel left mid
      else some mid
    else none

/-- Embedding of `Object::find_key`: binary search over the whole key-offset
table. -/
def Object.find_key (keys : List ByteKey) (target : ByteKey) : Option Nat :=
  findKeyGo keys target keys.length 0 keys.length

theorem cmp_key_lt_of_length_lt {a b : ByteKey} (h : a.length < b.length) :
    cmp_key a b = .lt := by
  unfold cmp_key
  rw [Nat.compare_eq_lt.mpr h]
  rfl

theorem cmp_key_gt_of_length_gt {a b : ByteKey} (h : b.length < a.length) :
    cmp_key a b = .gt := by
  unfold cmp_key
  rw [Nat.compare_eq_gt.mpr h]
  rfl

theorem cmp_key_of_length_eq {a b : ByteKey} (h : a.length = b.length) :
    cmp_key a b = cmpBytes a b := by
  unfold cmp_key
  rw [Nat.compare_eq_eq.mpr h]
  rcases cmpBytes a b <;> rfl

/-- A hit of the reader's binary search points at an entry whose key equals
the target. -/
theorem findKeyGo_some (keys : List ByteKey) (target : ByteKey) :
    ∀ fuel left right, right ≤ keys.length → ∀ j,
      findKeyGo keys target fuel left right = some j →
      j < keys.length ∧ keys.getD j [] = target := by
  intro fuel
  induction fuel with
  | zero =>
    intro left right hr j hj
    simp [findKeyGo] at hj
  | succ n ih =>
    intro left right hr j hj
    simp only [findKeyGo] at hj
    by_cases hlt : left < right
    · rw [if_pos hlt] at hj
      set mid := left + (right - left) / 2 with hmid
      set cur := keys.getD mid [] with hcur
      by_cases h1 : cur.length < target.length
      · rw [if_pos h1] at hj
        exact ih (mid + 1) right hr j hj
      · rw [if_neg h1] at hj
        by_cases h2 : target.length < cur.length
        · rw [if_pos h2] at hj
          exact ih left mid (by omega) j hj
        · rw [if_neg h2] at hj
          by_cases h3 : cmpBytes cur target = .lt
          · rw [if_pos h3] at hj
            exact ih (mid + 1) right hr j hj
          · rw [if_neg h3] at hj
            by_cases h4 : cmpBytes cur target = .gt
            · rw [if_pos h4] at hj
              exact ih left mid (by omega) j hj
            · rw [if_neg h4] at hj
              simp only [Option.some.injEq] at hj
              subst hj
              refine ⟨by omega, ?_⟩
              have hbytes : cmpBytes cur target = .eq := by
                rcases hb : cmpBytes cur target with _ | _ | _
                · exact absurd hb h3
                · rfl
                · exact absurd hb h4
              have := cmpBytes_eq_iff.mp hbytes
              rw [hcur] at this
              exact this
    · rw [if_neg hlt] at hj
      exact absurd hj (by simp)

theorem getD_keyLe_of_le (keys : List ByteKey) (hsort : sortedKeys keys)
    {i j : Nat} (hij : i ≤ j) (hj : j < keys.length) :
    keyLe (keys.getD i []) (keys.getD j []) := by
  rcases Nat.eq_or_lt_of_le hij with he | hlt
  · subst he; exact keyLe_refl _
  · have hp := List.pairwise_iff_getElem.mp hsort
    have hi : i < keys.length := by omega
    rw [List.getD_eq_getElem _ _ hi, List.getD_eq_getElem _ _ hj]
    exact hp i j hi hj hlt

/-- Over a sorted table that contains the target key, the reader's binary
search always hits (the fuel covers the window at the `find_key` entry
point). -/
theorem findKeyGo_finds (keys : List ByteKey) (target : ByteKey) (hsort : sortedKeys keys) :
    ∀ fuel left right, right - left ≤ fuel → right ≤ keys.length →
      (∃ i, i < keys.length ∧ left ≤ i ∧ i < right ∧ keys.getD i [] = target) →
      ∃ j, findKeyGo keys target fuel left right = some j := by
  intro fuel
  induction fuel with
  | zero =>
    intro left right hf hr hex
    obtain ⟨i, hil, hli, hir, hit⟩ := hex
    omega
  | succ n ih =>
    intro left right hf hr hex
    obtain ⟨i, hil, hli, hir, hit⟩ := hex
    have hlt : left < right := by omega
    simp only [findKeyGo, if_pos hlt]
    set mid := left + (right - left) / 2 with hmid
    set cur := keys.getD mid [] with hcur
    have hmidlen : mid < keys.length := by omega
    by_cases h1 : cur.length < target.length
    · rw [if_pos h1]
      refine ih (mid + 1) right (by omega) hr ⟨i, hil, ?_, hir, hit⟩
      by_contra hcon
      push_neg at hcon
      have hcmid : cmp_key cur target = .lt := cmp_key_lt_of_length_lt h1
      have hle : keyLe (keys.getD i []) cur := by
        rw [hcur]
        exact getD_keyLe_of_le keys hsort (by omega) hmidlen
      have hli2 : cmp_key (keys.getD i []) target = .lt := cmp_lt_of_le_of_lt hle hcmid
      rw [hit, cmp_key_eq_iff.mpr rfl] at hli2
      exact absurd hli2 (by decide)
    · rw [if_neg h1]
      by_cases h2 : target.length < cur.length
      · rw [if_pos h2]
        refine ih left mid (by omega) (by omega) ⟨i, hil, hli, ?_, hit⟩
        by_contra hcon
        push_neg at hcon
        have hcmid : cmp_key cur target = .gt := cmp_key_gt_of_length_gt h2
        have hle : keyLe cur (keys.getD i []) := by
          rw [hcur]
          exact getD_keyLe_of_le keys hsort (by omega) (by omega)
        have hgi : cmp_key (keys.getD i []) target = .gt := cmp_gt_of_ge_of_gt hle hcmid
        rw [hit, cmp_key_eq_iff.mpr rfl] at hgi
        exact absurd hgi (by decide)
      · rw [if_neg h2]
        by_cases h3 : cmpBytes cur target = .lt
        · rw [if_pos h3]
          refine ih (mid + 1) right (by omega) hr ⟨i, hil, ?_, hir, hit⟩
          by_contra hcon
          push_neg at hcon
          have hcmid : cmp_key cur target = .lt := by
            rw [cmp_key_of_length_eq (by omega)]
            exact h3
          have hle : keyLe (keys.getD i []) cur := by
            rw [hcur]
            exact getD_keyLe_of_le keys hsort (by omega) hmidlen
          have hli2 : cmp_key (keys.getD i []) target = .lt := cmp_lt_of_le_of_lt hle hcmid
          rw [hit, cmp_key_eq_iff.mpr rfl] at hli2
          exact absurd hli2 (by decide)
        · rw [if_neg h3]
          by_cases h4 : cmpBytes cur target = .gt
          · rw [if_pos h4]
            refine ih left mid (by omega) (by omega) ⟨i, hil, hli, ?_, hit⟩
            by_contra hcon
            push_neg at hcon
            have hcmid : cmp_key cur target = .gt := by
              rw [cmp_key_of_length_eq (by omega)]
              exact h4
            have hle : keyLe cur (keys.getD i []) := by
              rw [hcur]
              exact getD_keyLe_of_le keys hsort (by omega) (by omega)
            have hgi : cmp_key (keys.getD i []) target = .gt := cmp_gt_of_ge_of_gt hle hcmid
            rw [hit, cmp_key_eq_iff.mpr rfl] at hgi
            exact absurd hgi (by decide)
          · rw [if_neg h4]
            exact ⟨mid, rfl⟩

/-- Combined reader-lookup correctness: over a sorted table containing the
target, `find_key` returns the index of an entry whose key equals the
target. -/
theorem find_key_finds (keys : List ByteKey) (target : ByteKey) (hsort : sortedKeys keys)
    (hmem : target ∈ keys) :
    ∃ j, Object.find_key keys target = some j ∧ j < keys.length ∧ keys.getD j [] = target := by
  rw [List.mem_iff_getElem] at hmem
  obtain ⟨i, hi, hit⟩ := hmem
  obtain ⟨j, hj⟩ := findKeyGo_finds keys target hsort keys.length 0 keys.length (by omega)
    (le_refl _) ⟨i, hi, by omega, hi, by rw [List.getD_eq_getElem _ _ hi]; exact hit⟩
  obtain ⟨hjl, hjt⟩ := findKeyGo_some keys target keys.length 0 keys.length (le_refl _) j hj
  exact ⟨j, hj, hjl, hjt⟩

/-! ## Builder and reader claim support -/

theorem count_insertIdx (l : List ByteKey) (p : Nat) (a : ByteKey) (hp : p ≤ l.length) :
    (l.insertIdx p a).count a = l.count a + 1 := by
  rw [insertIdx_eq_take_cons_drop a p l hp, List.count_append, List.count_cons_self]
  conv_rhs => rw [← List.take_append_drop p l, List.count_append]
  omega

theorem length_insertIdx_table (l : List Nat) (p : Nat) (a : Nat) (hp : p ≤ l.length) :
    (l.insertIdx p a).length = l.length + 1 := by
  rw [insertIdx_eq_take_cons_drop a p l hp]
  simp
  omega

theorem objectFinish_ok_iff (s : ObjBuilderState) (n d : Nat) :
    objectFinish s n d d = .ok s ↔ s.table.length = n := by
  unfold objectFinish
  simp only [ne_eq, not_true_eq_false, if_false, ite_not]
  constructor
  · intro h
    by_cases hc : s.table.length = n
    · exact hc
    · simp [hc] at h
  · intro h
    simp [h]

theorem objectFinish_ok_elim {s t : ObjBuilderState} {n d dl : Nat}
    (h : objectFinish s n dl d = .ok t) : t = s := by
  unfold objectFinish at h
  by_cases h1 : dl ≠ d
  · simp [h1] at h
  · by_cases h2 : s.table.length ≠ n
    · simp [h1, h2] at h
    · simp [h1, h2] at h
      exact h.symm

/-! ## Claims about the builder and reader -/

/-- C1 counterexample: a declared-sorted builder accepts keys pushed out of
order; `finish` seals the object (the order check is debug-only), yet the
key-offset table is not sorted and iteration yields the keys out of order, so
the claim that every sealed object's table is sorted in both modes is false. -/
theorem c1_counterexample :
    objectFinish (pushKeys (emptyObjBuilder true) [[98], [97]]) 2 1 1 =
      .ok (pushKeys (emptyObjBuilder true) [[98], [97]]) ∧
    tableKeys (pushKeys (emptyObjBuilder true) [[98], [97]]) = [[98], [97]] ∧
    ¬ sortedKeys (tableKeys (pushKeys (emptyObjBuilder true) [[98], [97]])) := by
  refine ⟨by decide, by decide, by decide⟩

/-- C1 (amended): every object sealed by `finish` in unsorted-insertion mode
has its key-offset table sorted under the length-then-lexicographic
comparator, so iterating its keys yields them in that order (the example
sequence included); in declared-sorted mode the table simply mirrors the push
order — it is sorted exactly when the caller pushed in sorted order, the
`finish`-time order check being debug-only. -/
theorem c1_key_table_order :
    (∀ (keys : List ByteKey) (n d : Nat) (s : ObjBuilderState),
        objectFinish (pushKeys (emptyObjBuilder false) keys) n d d = .ok s →
        sortedKeys (tableKeys s)) ∧
    (∀ keys : List ByteKey, tableKeys (pushKeys (emptyObjBuilder true) keys) = keys) ∧
    tableKeys (pushKeys (emptyObjBuilder false)
        [[107, 101, 121, 107, 101, 121], [107, 101, 121, 107], [107, 101, 121],
         [107, 101, 121, 107, 101], [107, 101]]) =
      [[107, 101], [107, 101, 121], [107, 101, 121, 107],
       [107, 101, 121, 107, 101], [107, 101, 121, 107, 101, 121]] := by
  refine ⟨?_, ?_, by decide⟩
  · intro keys n d s hfin
    have hinv := pushKeys_unsorted_inv keys (emptyObjBuilder false) rfl
      (by intro off hoff; simp [emptyObjBuilder] at hoff)
      (by simp [tableKeys, emptyObjBuilder, sortedKeys])
    have := objectFinish_ok_elim hfin
    subst this
    exact hinv.2.1
  · intro keys
    have := pushKeys_sorted_tableKeys keys (emptyObjBuilder true) rfl
      (by intro off hoff; simp [emptyObjBuilder] at hoff)
    simpa [tableKeys, emptyObjBuilder] using this

/-- C1 witness: the amended theorem applied at the two-key unsorted build. -/
theorem c1_witness :
    sortedKeys (tableKeys (pushKeys (emptyObjBuilder false) [[98], [97]])) :=
  c1_key_table_order.1 [[98], [97]] 2 1 (pushKeys (emptyObjBuilder false) [[98], [97]])
    (by decide)

/-- C6: creating a nested container builder (array or object alike) when the
live nesting depth is already 100 is rejected with `NestedTooDeeply`, and a
successful creation bumps the depth to at most 100, so nested container depth
never exceeds 100 on the build path.  (The object half is modelled from the
spec, the current object `try_new` being absent from the source snapshot.) -/
theorem c6_depth_gate :
    (∀ ec live, MAX_NESTED_DEPTH ≤ live →
        InnerArrayBuilder.try_new ec live = .error .NestedTooDeeply) ∧
    (∀ (ks : Bool) live, MAX_NESTED_DEPTH ≤ live →
        InnerObjectBuilder.try_new ks live = .error .NestedTooDeeply) ∧
    (∀ ec live s l2, InnerArrayBuilder.try_new ec live = .ok (s, l2) →
        l2 = live + 1 ∧ l2 ≤ MAX_NESTED_DEPTH) ∧
    (∀ (ks : Bool) live s l2, InnerObjectBuilder.try_new ks live = .ok (s, l2) →
        l2 = live + 1 ∧ l2 ≤ MAX_NESTED_DEPTH) := by
  refine ⟨?_, ?_, ?_, ?_⟩
  · intro ec live h
    simp [InnerArrayBuilder.try_new, h]
  · intro ks live h
    simp [InnerObjectBuilder.try_new, h]
  · intro ec live s l2 h
    unfold InnerArrayBuilder.try_new at h
    by_cases hge : MAX_NESTED_DEPTH ≤ live
    · simp [hge] at h
    · simp [hge] at h
      unfold MAX_NESTED_DEPTH at hge ⊢
      omega
  · intro ks live s l2 h
    unfold InnerObjectBuilder.try_new at h
    by_cases hge : MAX_NESTED_DEPTH ≤ live
    · simp [hge] at h
    · simp [hge] at h
      unfold MAX_NESTED_DEPTH at hge ⊢
      omega

/-- C6 witness: creation at live depth 100 is rejected for both builders, and
creation at depth 99 succeeds with the counter at 100. -/
theorem c6_witness :
    InnerArrayBuilder.try_new 1 100 = .error .NestedTooDeeply ∧
    InnerObjectBuilder.try_new true 100 = .error .NestedTooDeeply ∧
    ((101 : Nat) = 99 + 1 ∧ (101 : Nat) ≤ MAX_NESTED_DEPTH → False) := by
  refine ⟨c6_depth_gate.1 1 100 (by decide), c6_depth_gate.2.1 true 100 (by decide), ?_⟩
  intro h
  have := h.2
  revert this
  decide

/-- C7 counterexample: an array builder declared for 2 elements with a nested
array builder still open has pushed 1 ≠ 2 elements, yet `finish` reports
`InnerUncompletedError`, not `InconsistentElementCount` — the depth check
comes first. -/
theorem c7_counterexample :
    InnerArrayBuilder.try_new 2 0 =
      .ok ({ element_count := 2, value_count := 0, current_depth := 1 }, 1) ∧
    InnerArrayBuilder.push_array { element_count := 2, value_count := 0, current_depth := 1 } 1 1 =
      .ok ({ element_count := 2, value_count := 1, current_depth := 1 },
        { element_count := 1, value_count := 0, current_depth := 2 }, 2) ∧
    InnerArrayBuilder.finish { element_count := 2, value_count := 1, current_depth := 1 } 2 =
      .error .InnerUncompletedError ∧
    (1 : Nat) ≠ 2 ∧
    (Except.error BuildError.InnerUncompletedError : Except BuildError Nat) ≠
      .error (.InconsistentElementCount 2 1) := by
  refine ⟨by decide, by decide, by decide, by decide, by decide⟩

/-- C7 (amended): for a builder with no still-open descendant (its depth
snapshot equals the live depth), `finish` succeeds exactly when the pushed
count equals the declared count, and otherwise returns
`InconsistentElementCount` carrying the declared and pushed counts; with an
open descendant `finish` instead returns `InnerUncompletedError`. -/
theorem c7_element_count_check :
    (∀ (s : ArrState) (live : Nat), s.current_depth = live →
        (s.value_count = s.element_count →
          InnerArrayBuilder.finish s live = .ok (live - 1)) ∧
        (s.value_count ≠ s.element_count →
          InnerArrayBuilder.finish s live =
            .error (.InconsistentElementCount s.element_count s.value_count))) ∧
    (∀ (s : ObjBuilderState) (ec d : Nat),
        (s.table.length = ec → objectFinish s ec d d = .ok s) ∧
        (s.table.length ≠ ec →
          objectFinish s ec d d = .error (.InconsistentElementCount ec s.table.length))) ∧
    (∀ (s : ArrState) (live r : Nat), InnerArrayBuilder.finish s live = .ok r →
        s.value_count = s.element_count) ∧
    (∀ (s : ObjBuilderState) (ec d dl : Nat) (t : ObjBuilderState),
        objectFinish s ec dl d = .ok t → s.table.length = ec) := by
  refine ⟨?_, ?_, ?_, ?_⟩
  · intro s live hd
    constructor
    · intro hc
      simp [InnerArrayBuilder.finish, hd, hc]
    · intro hc
      simp [InnerArrayBuilder.finish, hd, hc]
  · intro s ec d
    constructor
    · intro hc
      simp [objectFinish, hc]
    · intro hc
      simp [objectFinish, hc]
  · intro s live r h
    unfold InnerArrayBuilder.finish at h
    by_cases h1 : s.current_depth ≠ live
    · simp [h1] at h
    · by_cases h2 : s.value_count ≠ s.element_count
      · simp [h1, h2] at h
      · simpa using h2
  · intro s ec dl d t h
    unfold objectFinish at h
    by_cases h1 : dl = d
    · subst h1
      by_cases h2 : s.table.length = ec
      · exact h2
      · simp [h2] at h
    · rw [if_pos (fun hc : _ = _ => h1 hc.symm)] at h
      exact absurd h (by simp)

/-- C7 witness: the amended theorem applied at a clean array builder that
declared 3 elements but pushed 1, and at a clean object builder that declared
2 keys but holds 1. -/
theorem c7_witness :
    InnerArrayBuilder.finish { element_count := 3, value_count := 1, current_depth := 5 } 5 =
      .error (.InconsistentElementCount 3 1) ∧
    objectFinish { entries := [[97]], table := [0], keySorted := true } 2 4 4 =
      .error (.InconsistentElementCount 2 1) :=
  ⟨(c7_element_count_check.1 { element_count := 3, value_count := 1, current_depth := 5 } 5
      rfl).2 (by decide),
   (c7_element_count_check.2.1 { entries := [[97]], table := [0], keySorted := true } 2 4).2
      (by decide)⟩

/-- C8 counterexample: with the unsorted builder, pushing `"b"` then `"a"`
stores the key bytes in push order `["b", "a"]` in the buffer — not in key
order — although the object seals successfully and its key-offset table is
sorted; only the offset table is rearranged, never the entries. -/
theorem c8_counterexample :
    (pushKeys (emptyObjBuilder false) [[98], [97]]).entries = [[98], [97]] ∧
    ¬ sortedKeys (pushKeys (emptyObjBuilder false) [[98], [97]]).entries ∧
    objectFinish (pushKeys (emptyObjBuilder false) [[98], [97]]) 2 1 1 =
      .ok (pushKeys (emptyObjBuilder false) [[98], [97]]) ∧
    tableKeys (pushKeys (emptyObjBuilder false) [[98], [97]]) = [[97], [98]] := by
  refine ⟨by decide, by decide, by decide, by decide⟩

/-- C8 (amended): in every sealed object the key-offset *table* is in
key-sorted order when built unsorted, but the key/value entries are physically
arranged in push order in both modes; the physical arrangement is key-sorted
only when the keys were pushed in sorted order (as an honest declared-sorted
caller does). -/
theorem c8_physical_layout :
    (∀ (keys : List ByteKey) (b : Bool), (pushKeys (emptyObjBuilder b) keys).entries = keys) ∧
    (∀ (keys : List ByteKey) (n d : Nat) (s : ObjBuilderState),
        objectFinish (pushKeys (emptyObjBuilder false) keys) n d d = .ok s →
        sortedKeys (tableKeys s) ∧ s.entries = keys) := by
  constructor
  · intro keys b
    rw [pushKeys_entries]
    simp [emptyObjBuilder]
  · intro keys n d s hfin
    have hinv := pushKeys_unsorted_inv keys (emptyObjBuilder false) rfl
      (by intro off hoff; simp [emptyObjBuilder] at hoff)
      (by simp [tableKeys, emptyObjBuilder, sortedKeys])
    have hs := objectFinish_ok_elim hfin
    subst hs
    refine ⟨hinv.2.1, ?_⟩
    rw [pushKeys_entries]
    simp [emptyObjBuilder]

/-- C8 witness: the amended theorem applied at the two-key unsorted build. -/
theorem c8_witness :
    sortedKeys (tableKeys (pushKeys (emptyObjBuilder false) [[99], [97]])) ∧
    (pushKeys (emptyObjBuilder false) [[99], [97]]).entries = [[99], [97]] :=
  c8_physical_layout.2 [[99], [97]] 2 1 (pushKeys (emptyObjBuilder false) [[99], [97]])
    (by decide)

/-- C10: pushing a key byte-equal to an already-pushed key into an
unsorted-mode object builder succeeds without deduplication — the binary
search's exact hit is used as the insertion point — so the second entry is
stored, the element count grows by one (the sealed object's `len()` counts
both), the table stays sorted, and the reader's key lookup returns one of the
duplicate entries (an index whose key equals the looked-up key). -/
theorem c10_duplicate_keys (s : ObjBuilderState) (k : ByteKey)
    (hks : s.keySorted = false) (hwf : ObjWF s) (hsort : sortedKeys (tableKeys s))
    (hmem : k ∈ tableKeys s) :
    (tableKeys (pushKey s k)).count k = (tableKeys s).count k + 1 ∧
    2 ≤ (tableKeys (pushKey s k)).count k ∧
    (pushKey s k).table.length = s.table.length + 1 ∧
    (pushKey s k).entries = s.entries ++ [k] ∧
    sortedKeys (tableKeys (pushKey s k)) ∧
    (∃ j, Object.find_key (tableKeys (pushKey s k)) k = some j ∧
        (tableKeys (pushKey s k)).getD j [] = k) := by
  have htk := tableKeys_pushKey_unsorted s k hks hwf
  have hple : InnerObjectBuilder.binary_search k s.entries s.table ≤ (tableKeys s).length := by
    rw [tableKeys_length]
    exact binary_search_le k s.entries s.table
  have hcount : (tableKeys (pushKey s k)).count k = (tableKeys s).count k + 1 := by
    rw [htk]
    exact count_insertIdx _ _ _ hple
  have hsort2 := pushKey_unsorted_sorted s k hks hwf hsort
  have hmem2 : k ∈ tableKeys (pushKey s k) := by
    rw [htk, insertIdx_eq_take_cons_drop _ _ _ hple]
    exact List.mem_append.mpr (Or.inr (List.mem_cons_self _ _))
  refine ⟨hcount, ?_, ?_, pushKey_entries s k, hsort2, ?_⟩
  · have : 0 < (tableKeys s).count k := List.count_pos_iff.mpr hmem
    omega
  · unfold pushKey
    rw [hks]
    simp only [Bool.false_eq_true, if_false]
    exact length_insertIdx_table _ _ _ (binary_search_le k s.entries s.table)
  · obtain ⟨j, hj, _hjl, hjk⟩ := find_key_finds _ k hsort2 hmem2
    exact ⟨j, hj, hjk⟩

/-- C10 witness: pushing the key `"a"` into an unsorted builder that already
holds `"a"` keeps both entries and lookup still finds the key. -/
theorem c10_witness :
    (tableKeys (pushKey { entries := [[97]], table := [0], keySorted := false } [97])).count [97] =
        (tableKeys ({ entries := [[97]], table := [0], keySorted := false } :
          ObjBuilderState)).count [97] + 1 ∧
    2 ≤ (tableKeys (pushKey { entries := [[97]], table := [0], keySorted := false } [97])).count
        [97] ∧
    (pushKey { entries := [[97]], table := [0], keySorted := false } [97]).table.length =
        ({ entries := [[97]], table := [0], keySorted := false } : ObjBuilderState).table.length
          + 1 ∧
    (pushKey { entries := [[97]], table := [0], keySorted := false } [97]).entries =
        ({ entries := [[97]], table := [0], keySorted := false } : ObjBuilderState).entries
          ++ [[97]] ∧
    sortedKeys (tableKeys (pushKey { entries := [[97]], table := [0], keySorted := false } [97])) ∧
    (∃ j, Object.find_key
          (tableKeys (pushKey { entries := [[97]], table := [0], keySorted := false } [97]))
          [97] = some j ∧
        (tableKeys (pushKey { entries := [[97]], table := [0], keySorted := false } [97])).getD j
          [] = [97]) :=
  c10_duplicate_keys { entries := [[97]], table := [0], keySorted := false } [97] rfl
    (by intro off hoff; simp at hoff; simp [hoff]) (by decide) (by decide)

/-! ## Claim about the varint codec -/

theorem encode_varint_lt (n : Nat) (h : n < 128) : encode_varint n [] = [n] := by
  unfold encode_varint
  rw [if_pos h]
  simp
  omega

/-- Extracting one big-endian byte out of a word assembled from disjoint byte
fields. -/
theorem byte_extract (x s lo hi : Nat) (hx : x < 256) (hlo : lo < 2 ^ s) :
    (lo + x * 2 ^ s + hi * (2 ^ s * 256)) / 2 ^ s % 256 = x := by
  have hs : 0 < 2 ^ s := Nat.pos_pow_of_pos s (by omega)
  have h1 : lo + x * 2 ^ s + hi * (2 ^ s * 256) = lo + (x + 256 * hi) * 2 ^ s := by ring
  rw [h1, Nat.add_mul_div_right _ _ hs, Nat.div_eq_of_lt hlo, Nat.zero_add,
    Nat.add_mul_mod_self_left, Nat.mod_eq_of_lt hx]

theorem encode_varint_two (n : Nat) (h1 : 128 ≤ n) (h2 : n < 2 ^ 14) :
    encode_varint n [] = [n % 128 + 128, n / 128] := by
  unfold encode_varint
  rw [if_neg (by omega)]
  have hv1 : ¬ n / 128 = 0 := by omega
  have hv2 : n / 128 / 128 = 0 := by omega
  simp only [SHIFT, evLoop, hv1, hv2, ne_eq, not_false_eq_true, if_true, if_false,
    not_true_eq_false, ite_true, ite_false, toBeBytes]
  simp only [List.take_succ_cons, List.take_zero, List.nil_append, List.cons.injEq, and_true]
  constructor
  · have heq : 0 + (n % 128 + 128) * 2 ^ 24 + n / 128 % 128 * 2 ^ 16
        = n / 128 % 128 * 2 ^ 16 + (n % 128 + 128) * 2 ^ 24 + 0 * (2 ^ 24 * 256) := by ring
    rw [heq, byte_extract _ _ _ _ (by omega) (by omega)]
  · have heq : 0 + (n % 128 + 128) * 2 ^ 24 + n / 128 % 128 * 2 ^ 16
        = 0 + n / 128 % 128 * 2 ^ 16 + (n % 128 + 128) * (2 ^ 16 * 256) := by ring
    rw [heq, byte_extract _ _ _ _ (by omega) (by omega)]
    omega

theorem encode_varint_three (n : Nat) (h1 : 2 ^ 14 ≤ n) (h2 : n < 2 ^ 21) :
    encode_varint n [] = [n % 128 + 128, n / 128 % 128 + 128, n / 128 / 128] := by
  unfold encode_varint
  rw [if_neg (by omega)]
  have hv1 : ¬ n / 128 = 0 := by omega
  have hv2 : ¬ n / 128 / 128 = 0 := by omega
  have hv3 : n / 128 / 128 / 128 = 0 := by omega
  simp only [SHIFT, evLoop, hv1, hv2, hv3, ne_eq, not_false_eq_true, if_true, if_false,
    not_true_eq_false, ite_true, ite_false, toBeBytes]
  simp only [List.take_succ_cons, List.take_zero, List.nil_append, List.cons.injEq, and_true]
  refine ⟨?_, ?_, ?_⟩
  · have heq : 0 + (n % 128 + 128) * 2 ^ 24 + (n / 128 % 128 + 128) * 2 ^ 16
        + n / 128 / 128 % 128 * 2 ^ 8
        = ((n / 128 % 128 + 128) * 2 ^ 16 + n / 128 / 128 % 128 * 2 ^ 8)
          + (n % 128 + 128) * 2 ^ 24 + 0 * (2 ^ 24 * 256) := by ring
    rw [heq, byte_extract _ _ _ _ (by omega) (by omega)]
  · have heq : 0 + (n % 128 + 128) * 2 ^ 24 + (n / 128 % 128 + 128) * 2 ^ 16
        + n / 128 / 128 % 128 * 2 ^ 8
        = n / 128 / 128 % 128 * 2 ^ 8 + (n / 128 % 128 + 128) * 2 ^ 16
          + (n % 128 + 128) * (2 ^ 16 * 256) := by ring
    rw [heq, byte_extract _ _ _ _ (by omega) (by omega)]
  · have heq : 0 + (n % 128 + 128) * 2 ^ 24 + (n / 128 % 128 + 128) * 2 ^ 16
        + n / 128 / 128 % 128 * 2 ^ 8
        = 0 + n / 128 / 128 % 128 * 2 ^ 8
          + ((n / 128 % 128 + 128) + 256 * (n % 128 + 128)) * (2 ^ 8 * 256) := by ring
    rw [heq, byte_extract _ _ _ _ (by omega) (by omega)]
    omega

theorem encode_varint_four (n : Nat) (h1 : 2 ^ 21 ≤ n) (h2 : n < 2 ^ 28) :
    encode_varint n [] =
      [n % 128 + 128, n / 128 % 128 + 128, n / 128 / 128 % 128 + 128, n / 128 / 128 / 128] := by
  unfold encode_varint
  rw [if_neg (by omega)]
  have hv1 : ¬ n / 128 = 0 := by omega
  have hv2 : ¬ n / 128 / 128 = 0 := by omega
  have hv3 : ¬ n / 128 / 128 / 128 = 0 := by omega
  have hv4 : n / 128 / 128 / 128 / 128 = 0 := by omega
  simp only [SHIFT, evLoop, hv1, hv2, hv3, hv4, ne_eq, not_false_eq_true, if_true, if_false,
    not_true_eq_false, ite_true, ite_false, toBeBytes]
  simp only [List.take_succ_cons, List.take_zero, List.nil_append, List.cons.injEq, and_true]
  refine ⟨?_, ?_, ?_, ?_⟩
  · have heq : 0 + (n % 128 + 128) * 2 ^ 24 + (n / 128 % 128 + 128) * 2 ^ 16
        + (n / 128 / 128 % 128 + 128) * 2 ^ 8 + n / 128 / 128 / 128 % 128 * 2 ^ 0
        = ((n / 128 % 128 + 128) * 2 ^ 16 + (n / 128 / 128 % 128 + 128) * 2 ^ 8
            + n / 128 / 128 / 128 % 128)
          + (n % 128 + 128) * 2 ^ 24 + 0 * (2 ^ 24 * 256) := by ring
    rw [heq, byte_extract _ _ _ _ (by omega) (by omega)]
  · have heq : 0 + (n % 128 + 128) * 2 ^ 24 + (n / 128 % 128 + 128) * 2 ^ 16
        + (n / 128 / 128 % 128 + 128) * 2 ^ 8 + n / 128 / 128 / 128 % 128 * 2 ^ 0
        = ((n / 128 / 128 % 128 + 128) * 2 ^ 8 + n / 128 / 128 / 128 % 128)
          + (n / 128 % 128 + 128) * 2 ^ 16 + (n % 128 + 128) * (2 ^ 16 * 256) := by ring
    rw [heq, byte_extract _ _ _ _ (by omega) (by omega)]
  · have heq : 0 + (n % 128 + 128) * 2 ^ 24 + (n / 128 % 128 + 128) * 2 ^ 16
        + (n / 128 / 128 % 128 + 128) * 2 ^ 8 + n / 128 / 128 / 128 % 128 * 2 ^ 0
        = n / 128 / 128 / 128 % 128 + (n / 128 / 128 % 128 + 128) * 2 ^ 8
          + ((n / 128 % 128 + 128) + 256 * (n % 128 + 128)) * (2 ^ 8 * 256) := by ring
    rw [heq, byte_extract _ _ _ _ (by omega) (by omega)]
  · have heq : 0 + (n % 128 + 128) * 2 ^ 24 + (n / 128 % 128 + 128) * 2 ^ 16
        + (n / 128 / 128 % 128 + 128) * 2 ^ 8 + n / 128 / 128 / 128 % 128 * 2 ^ 0
        = n / 128 / 128 / 128 % 128
          + 256 * ((n / 128 / 128 % 128 + 128) + 256 * ((n / 128 % 128 + 128)
              + 256 * (n % 128 + 128))) := by ring
    rw [heq, Nat.add_mul_mod_self_left]
    omega

theorem dvLoop_step_stop (buf : List Nat) (index rem i acc byte : Nat)
    (hbyte : buf[index + i]? = some byte) (hmsb : byte / 128 % 2 = 0) :
    dvLoop buf index (rem + 1) i acc = .ok (acc + byte % 128 * 2 ^ (7 * i), i + 1) := by
  simp only [dvLoop, hbyte, hmsb, if_true, ite_true]

theorem dvLoop_step_more (buf : List Nat) (index rem i acc byte : Nat)
    (hbyte : buf[index + i]? = some byte) (hmsb : ¬ byte / 128 % 2 = 0) :
    dvLoop buf index (rem + 1) i acc =
      dvLoop buf index rem (i + 1) (acc + byte % 128 * 2 ^ (7 * i)) := by
  simp only [dvLoop, hbyte, hmsb, if_false, ite_false]

/-- C5: for every `n ≤ 2^28 − 1`, decoding the varint encoding of `n` returns
`n` together with the encoded byte count; the encoding is 1 to 4 bytes, each
byte carrying the next 7-bit group of `n` in little-endian group order with
the high bit set exactly on the non-final bytes. -/
theorem c5_varint_round_trip (n : Nat) (h : n < 2 ^ 28) :
    decode_varint (encode_varint n []) 0 = .ok (n, (encode_varint n []).length) ∧
    1 ≤ (encode_varint n []).length ∧ (encode_varint n []).length ≤ 4 ∧
    ∀ j, j < (encode_varint n []).length →
      (encode_varint n []).getD j 0 % 128 = n / 128 ^ j % 128 ∧
      (128 ≤ (encode_varint n []).getD j 0 ↔ j + 1 < (encode_varint n []).length) ∧
      (encode_varint n []).getD j 0 < 256 := by
  rcases Nat.lt_or_ge n 128 with hA | hA
  · rw [encode_varint_lt n hA]
    refine ⟨?_, by simp, by simp, ?_⟩
    · unfold decode_varint MAX_DATA_LENGTH_SIZE
      rw [show (4 : Nat) = 3 + 1 by rfl,
        dvLoop_step_stop [n] 0 3 0 0 n (by simp) (by omega)]
      simp only [Except.ok.injEq, Prod.mk.injEq, List.length_cons, List.length_nil]
      norm_num
      omega
    · intro j hj
      simp only [List.length_cons, List.length_nil] at hj
      have hj0 : j = 0 := by omega
      subst hj0
      simp only [List.getD]
      norm_num
      omega
  · rcases Nat.lt_or_ge n (2 ^ 14) with hB | hB
    · rw [encode_varint_two n hA hB]
      refine ⟨?_, by simp, by simp, ?_⟩
      · unfold decode_varint MAX_DATA_LENGTH_SIZE
        rw [show (4 : Nat) = 3 + 1 by rfl,
          dvLoop_step_more _ 0 3 0 0 (n % 128 + 128) (by simp) (by omega),
          show (3 : Nat) = 2 + 1 by rfl,
          dvLoop_step_stop _ 0 2 1 _ (n / 128) (by simp) (by omega)]
        simp only [Except.ok.injEq, Prod.mk.injEq, List.length_cons, List.length_nil]
        norm_num
        omega
      · intro j hj
        simp only [List.length_cons, List.length_nil] at hj
        rcases j with _ | _ | j
        · simp only [List.getD]
          norm_num
          omega
        · simp only [List.getD]
          norm_num
          omega
        · omega
    · rcases Nat.lt_or_ge n (2 ^ 21) with hC | hC
      · rw [encode_varint_three n hB hC]
        refine ⟨?_, by simp, by simp, ?_⟩
        · unfold decode_varint MAX_DATA_LENGTH_SIZE
          rw [show (4 : Nat) = 3 + 1 by rfl,
            dvLoop_step_more _ 0 3 0 0 (n % 128 + 128) (by simp) (by omega),
            show (3 : Nat) = 2 + 1 by rfl,
            dvLoop_step_more _ 0 2 1 _ (n / 128 % 128 + 128) (by simp) (by omega),
            show (2 : Nat) = 1 + 1 by rfl,
            dvLoop_step_stop _ 0 1 2 _ (n / 128 / 128) (by simp) (by omega)]
          simp only [Except.ok.injEq, Prod.mk.injEq, List.length_cons, List.length_nil]
          norm_num
          omega
        · intro j hj
          simp only [List.length_cons, List.length_nil] at hj
          rcases j with _ | _ | _ | j
          · simp only [List.getD]
            norm_num
            omega
          · simp only [List.getD]
            norm_num
            omega
          · simp only [List.getD]
            norm_num
            omega
          · omega
      · rw [encode_varint_four n hC h]
        refine ⟨?_, by simp, by simp, ?_⟩
        · unfold decode_varint MAX_DATA_LENGTH_SIZE
          rw [show (4 : Nat) = 3 + 1 by rfl,
            dvLoop_step_more _ 0 3 0 0 (n % 128 + 128) (by simp) (by omega),
            show (3 : Nat) = 2 + 1 by rfl,
            dvLoop_step_more _ 0 2 1 _ (n / 128 % 128 + 128) (by simp) (by omega),
            show (2 : Nat) = 1 + 1 by rfl,
            dvLoop_step_more _ 0 1 2 _ (n / 128 / 128 % 128 + 128) (by simp) (by omega),
            show (1 : Nat) = 0 + 1 by rfl,
            dvLoop_step_stop _ 0 0 3 _ (n / 128 / 128 / 128) (by simp) (by omega)]
          simp only [Except.ok.injEq, Prod.mk.injEq, List.length_cons, List.length_nil]
          norm_num
          omega
        · intro j hj
          simp only [List.length_cons, List.length_nil] at hj
          rcases j with _ | _ | _ | _ | j
          · simp only [List.getD]
            norm_num
            omega
          · simp only [List.getD]
            norm_num
            omega
          · simp only [List.getD]
            norm_num
            omega
          · simp only [List.getD]
            norm_num
            omega
          · omega

/-- C5 witness: the round-trip theorem applied at `n = 250000000`. -/
theorem c5_witness :
    decode_varint (encode_varint 250000000 []) 0 =
      .ok (250000000, (encode_varint 250000000 []).length) ∧
    1 ≤ (encode_varint 250000000 []).length ∧ (encode_varint 250000000 []).length ≤ 4 :=
  have h := c5_varint_round_trip 250000000 (by norm_num)
  ⟨h.1, h.2.1, h.2.2.1⟩

/-! ## Claim about string escaping -/

theorem take_slice_succ (bytes : List Nat) (s i : Nat) (hs : s ≤ i) (hi : i < bytes.length) :
    (bytes.drop s).take (i + 1 - s) = (bytes.drop s).take (i - s) ++ [bytes.getD i 0] := by
  have hlen : i - s < (bytes.drop s).length := by
    simp only [List.length_drop]
    omega
  have hidx : (bytes.drop s)[i - s]? = some (bytes.getD i 0) := by
    rw [List.getElem?_drop]
    have hsi : s + (i - s) = i := by omega
    rw [hsi, List.getElem?_eq_getElem hi, List.getD_eq_getElem _ _ hi]
  have : i + 1 - s = (i - s) + 1 := by omega
  rw [this, List.take_succ, hidx]
  rfl

theorem fesLoop_spec (bytes : List Nat) :
    ∀ fuel i start out, bytes.length - i ≤ fuel → start ≤ i → i ≤ bytes.length →
      (∀ j, start ≤ j → j < i → ESCAPE.getD (bytes.getD j 0) [] = []) →
      fesLoop bytes fuel i start out =
        out ++ (bytes.drop start).take (i - start)
            ++ ((bytes.drop i).map escapedByte).flatten := by
  intro fuel
  induction fuel with
  | zero =>
    intro i start out hf hs hi hpass
    have hieq : i = bytes.length := by omega
    subst hieq
    simp only [fesLoop, List.drop_length, List.map_nil, List.flatten_nil, List.append_nil]
    have htake : (bytes.drop start).take (bytes.length - start) = bytes.drop start := by
      apply List.take_of_length_le
      simp only [List.length_drop]
      omega
    rw [htake]
    by_cases hse : start = bytes.length
    · rw [if_neg (by omega)]
      subst hse
      simp
    · rw [if_pos hse]
  | succ fuel ih =>
    intro i start out hf hs hi hpass
    by_cases hlt : i < bytes.length
    · simp only [fesLoop, if_pos hlt]
      by_cases hesc : ESCAPE.getD (bytes.getD i 0) [] = []
      · rw [if_pos hesc]
        rw [ih (i + 1) start out (by omega) (by omega) (by omega) ?_]
        · have hdrop : bytes.drop i = bytes.getD i 0 :: bytes.drop (i + 1) := by
            rw [List.getD_eq_getElem _ _ hlt]
            exact List.drop_eq_getElem_cons hlt
          conv_rhs => rw [hdrop]
          simp only [List.map_cons, List.flatten_cons]
          have heb : escapedByte (bytes.getD i 0) = [bytes.getD i 0] := by
            unfold escapedByte
            rw [if_pos hesc]
          rw [heb, take_slice_succ bytes start i hs hlt]
          simp
        · intro j hj1 hj2
          rcases Nat.lt_or_ge j i with hji | hji
          · exact hpass j hj1 hji
          · have : j = i := by omega
            subst this
            exact hesc
      · rw [if_neg hesc]
        rw [ih (i + 1) (i + 1) _ (by omega) (by omega) (by omega) (by intro j h1 h2; omega)]
        have hout2 : (if start < i then out ++ (bytes.drop start).take (i - start) else out)
            = out ++ (bytes.drop start).take (i - start) := by
          by_cases hsi : start < i
          · rw [if_pos hsi]
          · rw [if_neg hsi]
            have : i - start = 0 := by omega
            rw [this]
            simp
        rw [hout2]
        have hdrop : bytes.drop i = bytes.getD i 0 :: bytes.drop (i + 1) := by
          rw [List.getD_eq_getElem _ _ hlt]
          exact List.drop_eq_getElem_cons hlt
        conv_rhs => rw [hdrop]
        simp only [List.map_cons, List.flatten_cons]
        have hzero : i + 1 - (i + 1) = 0 := by omega
        rw [hzero]
        have hebe : escapedByte (bytes.getD i 0) = ESCAPE.getD (bytes.getD i 0) [] := by
          unfold escapedByte
          rw [if_neg hesc]
        rw [← hebe]
        simp
    · simp only [fesLoop, if_neg hlt]
      have hieq : i = bytes.length := by omega
      subst hieq
      simp only [List.drop_length, List.map_nil, List.flatten_nil, List.append_nil]
      have htake : (bytes.drop start).take (bytes.length - start) = bytes.drop start := by
        apply List.take_of_length_le
        simp only [List.length_drop]
        omega
      rw [htake]
      by_cases hse : start = bytes.length
      · rw [if_neg (by omega)]
        subst hse
        simp
      · rw [if_pos hse]

theorem format_escaped_str_eq (bytes : List Nat) :
    format_escaped_str bytes = (bytes.map escapedByte).flatten := by
  unfold format_escaped_str
  rw [fesLoop_spec bytes bytes.length 0 0 [] (by omega) (by omega) (by omega)
    (by intro j h1 h2; omega)]
  simp

set_option maxRecDepth 4000 in
/-- C9 counterexample: the table maps byte `0x2F` to the single character
`"/"`, not to the two-character sequence `"\/"`; formatting the one-byte
string `"/"` emits `"/"` unchanged. -/
theorem c9_counterexample :
    format_escaped_str [47] = [47] ∧
    ESCAPE.getD 47 [] = [47] ∧
    format_escaped_str [47] ≠ [92, 47] := by
  refine ⟨by decide, by decide, by decide⟩

set_option maxRecDepth 4000 in
/-- C9 (amended): the JSON text formatters escape each byte through the
256-entry lookup table — `0x08, 0x09, 0x0A, 0x0C, 0x0D, 0x22, 0x5C` become
the two-character sequences `\b \t \n \f \r \" \\`, byte `0x2F` maps to the
single character `/` (it passes through unescaped, not as `\/`), all other
control bytes `0x00`–`0x1F` and byte `0x7F` become six-character uppercase
`\uXXXX` sequences, and every other byte passes through unchanged — and the
output is exactly the concatenation of the per-byte images. -/
theorem c9_escape_table :
    (∀ bytes : List Nat, format_escaped_str bytes = (bytes.map escapedByte).flatten) ∧
    escapedByte 0x08 = [92, 98] ∧ escapedByte 0x09 = [92, 116] ∧
    escapedByte 0x0A = [92, 110] ∧ escapedByte 0x0C = [92, 102] ∧
    escapedByte 0x0D = [92, 114] ∧ escapedByte 0x22 = [92, 34] ∧
    escapedByte 0x5C = [92, 92] ∧ escapedByte 0x2F = [47] ∧
    (∀ b, b < 32 → b ∉ ([8, 9, 10, 12, 13] : List Nat) →
      escapedByte b = [92, 117, 48, 48, hexUpper (b / 16), hexUpper (b % 16)]) ∧
    escapedByte 0x7F = [92, 117, 48, 48, 55, 70] ∧
    (∀ b, 32 ≤ b → b < 256 → b ≠ 0x22 → b ≠ 0x5C → b ≠ 0x7F → escapedByte b = [b]) := by
  refine ⟨format_escaped_str_eq, by decide, by decide, by decide, by decide, by decide,
    by decide, by decide, by decide, ?_, by decide, ?_⟩
  · decide
  · decide

/-- C9 witness: the flatten equation applied at the string `"a\tb"`. -/
theorem c9_witness : format_escaped_str [97, 9, 98] = [97, 92, 116, 98] := by
  rw [c9_escape_table.1 [97, 9, 98]]
  decide

/-! ## Path engine (src/path/parse.rs, src/path/query.rs, src/path/mod.rs)

The encoded document is viewed as a tree: the lazy reader's handles
(`LazyValue`, `Object`, `Array`) are random access into the encoding, so the
selector's traversal is faithfully captured by structural recursion over the
tree, with object entries carried in key-offset-table order. -/

/-- Single array index inside a step (src/path/parse.rs). -/
inductive SingleIndex where
  | index (i : Nat)
  | last (minus : Nat)
  deriving DecidableEq, Repr

/-- One comma-separated cell of a multi step. -/
inductive SingleStep where
  | single (si : SingleIndex)
  | range (b e : SingleIndex)
  deriving DecidableEq, Repr

/-- Array step kinds. -/
inductive ArrayStep where
  | index (i : Nat)
  | last (minus : Nat)
  | range (b e : SingleIndex)
  | multiple (ss : List SingleStep)
  | wildcard
  deriving DecidableEq, Repr

/-- Object step kinds. -/
inductive ObjectStep where
  | key (k : ByteKey)
  | wildcard
  deriving DecidableEq, Repr

/-- Terminal item-method steps. -/
inductive FuncStep where
  | count
  | size
  | type
  deriving DecidableEq, Repr

/-- A parsed path step (src/path/parse.rs). -/
inductive Step where
  | root
  | object (o : ObjectStep)
  | array (a : ArrayStep)
  | descendent (k : ByteKey)
  | func (f : FuncStep)
  deriving DecidableEq, Repr

/-- Tree view of an encoded yason value; object entries are listed in
key-offset-table order, numbers are abstracted to integers (the decimal codec
is opaque), strings and keys are byte sequences. -/
inductive Yason where
  | null
  | bool (b : Bool)
  | num (n : Int)
  | str (s : List Nat)
  | arr (elems : List Yason)
  | obj (entries : List (ByteKey × Yason))

/-- Kind names, as `DataType::name` (src/data_type.rs) exposes them. -/
def dataTypeName : Yason → List Nat
  | .obj _ => [111, 98, 106, 101, 99, 116]
  | .arr _ => [97, 114, 114, 97, 121]
  | .str _ => [115, 116, 114, 105, 110, 103]
  | .num _ => [110, 117, 109, 98, 101, 114]
  | .bool _ => [98, 111, 111, 108]
  | .null => [110, 117, 108, 108]

/-- Helper of `find_range`: clamp an ordered index pair to the array. -/
def find_range_by_index (begin_index end_index last : Nat) : Option (Nat × Nat) :=
  let e := min end_index last
  if begin_index ≤ e then some (begin_index, e) else none

/-- Helper of `find_range` for two `last - k` endpoints; Rust `saturating_sub`
is `Nat` subtraction. -/
def find_range_by_last (minus1 minus2 last : Nat) : Option (Nat × Nat) :=
  let begin_index := last - minus2
  if minus1 ≤ last then some (begin_index, last - minus1) else none

/-- Order a pair of endpoints. -/
def orderPair (l r : Nat) : Nat × Nat := if l ≤ r then (l, r) else (r, l)

/-- Embedding of `find_range` (src/path/query.rs): the closed index interval a
range step selects, `last` being the array's last index. -/
def find_range (b e : SingleIndex) (last : Nat) : Option (Nat × Nat) :=
  match b, e with
  | .index i1, .index i2 =>
    let p := orderPair i1 i2
    find_range_by_index p.1 p.2 last
  | .index i1, .last minus =>
    let i2 := last - minus
    let p := orderPair i1 i2
    find_range_by_index p.1 p.2 last
  | .last minus, .index i2 =>
    let i1 := last - minus
    let p := orderPair i1 i2
    find_range_by_index p.1 p.2 last
  | .last m1, .last m2 =>
    let p := orderPair m1 m2
    find_range_by_last p.1 p.2 last

/-- Embedding of `non_array_range_step_relaxed_match`: a non-array value acts
as a singleton array, so only index 0 can match. -/
def non_array_range_step_relaxed_match (b e : SingleIndex) : Bool :=
  match find_range b e 0 with
  | some p => p.1 == 0
  | none => false

/-- Embedding of `non_array_multi_steps_relaxed_match`. -/
def non_array_multi_steps_relaxed_match (steps : List SingleStep) : Bool :=
  steps.any fun step =>
    match step with
    | .single (.index index) => index == 0
    | .single (.last minus) => minus == 0
    | .range lf rf => non_array_range_step_relaxed_match lf rf

/-- Embedding of `Object::lazy_get`: `find_key` over the key-offset table,
then the value the hit entry holds. -/
def objectLazyGet (entries : List (ByteKey × Yason)) (k : ByteKey) : Option Yason :=
  match Object.find_key (entries.map Prod.fst) k with
  | some j => some (entries.getD j ([], Yason.null)).2
  | none => none

theorem sizeOf_take_le {α : Type} [SizeOf α] : ∀ (n : Nat) (l : List α),
    sizeOf (l.take n) ≤ sizeOf l := by
  intro n
  induction n with
  | zero =>
    intro l
    cases l with
    | nil => simp
    | cons a l =>
      simp only [List.take_zero, List.nil.sizeOf_spec, List.cons.sizeOf_spec]
      omega
  | succ n ih =>
    intro l
    cases l with
    | nil => simp
    | cons a l =>
      simp only [List.take_succ_cons, List.cons.sizeOf_spec]
      have := ih l
      omega

theorem sizeOf_drop_le {α : Type} [SizeOf α] : ∀ (n : Nat) (l : List α),
    sizeOf (l.drop n) ≤ sizeOf l := by
  intro n
  induction n with
  | zero =>
    intro l
    simp
  | succ n ih =>
    intro l
    cases l with
    | nil => simp
    | cons a l =>
      simp only [List.drop_succ_cons, List.cons.sizeOf_spec]
      have := ih l
      have h0 : 0 ≤ sizeOf a := by omega
      omega

theorem sizeOf_getElem_lt {α : Type} [SizeOf α] (l : List α) (i : Nat) (h : i < l.length) :
    sizeOf l[i] < sizeOf l :=
  List.sizeOf_lt_of_mem (l.getElem_mem h)

theorem objectLazyGet_sizeOf (entries : List (ByteKey × Yason)) (k : ByteKey) (v : Yason)
    (h : objectLazyGet entries k = some v) : sizeOf v < sizeOf entries := by
  unfold objectLazyGet at h
  rcases hf : Object.find_key (entries.map Prod.fst) k with _ | j
  · rw [hf] at h
    exact absurd h (by simp)
  · rw [hf] at h
    simp only [Option.some.injEq] at h
    obtain ⟨hjl, _⟩ := findKeyGo_some (entries.map Prod.fst) k _ 0 _ (le_refl _) j hf
    rw [List.length_map] at hjl
    have hgetd : entries.getD j ([], Yason.null) = entries[j] := List.getD_eq_getElem _ _ hjl
    have hev : sizeOf entries[j] < sizeOf entries := sizeOf_getElem_lt entries j hjl
    have hsnd : sizeOf (entries[j]).2 < sizeOf entries[j] := by
      rcases hp : entries[j] with ⟨a, b⟩
      simp only [Prod.mk.sizeOf_spec]
      omega
    rw [← h, hgetd]
    omega

/-- Lexicographic comparison helper for the selector's termination measure. -/
theorem lex4_lt {a1 b1 c1 d1 a2 b2 c2 d2 : Nat}
    (h : a1 < a2 ∨ (a1 = a2 ∧ (b1 < b2 ∨ (b1 = b2 ∧ (c1 < c2 ∨ (c1 = c2 ∧ d1 < d2)))))) :
    Prod.Lex (· < ·) (Prod.Lex (· < ·) (Prod.Lex (· < ·) (· < ·)))
      (a1, b1, c1, d1) (a2, b2, c2, d2) := by
  rcases h with h | ⟨ha, h⟩
  · exact Prod.Lex.left _ _ h
  · subst ha
    refine Prod.Lex.right _ ?_
    rcases h with h | ⟨hb, h⟩
    · exact Prod.Lex.left _ _ h
    · subst hb
      refine Prod.Lex.right _ ?_
      rcases h with h | ⟨hc, h⟩
      · exact Prod.Lex.left _ _ h
      · subst hc
        exact Prod.Lex.right _ h

theorem getElem?_some_lt {α : Type} {l : List α} {i : Nat} {a : α}
    (h : l[i]? = some a) : i < l.length := by
  rcases List.getElem?_eq_some.mp h with ⟨h1, _⟩
  exact h1

/-- A pending traversal obligation of the selector: `one` is
`query_internal` on a single value, `many` is the element loop the array
cases run, `kvs` is the object-value loop, `multi` is the outer loop of a
multi step, and `relax` is `non_array_relax_match`. -/
inductive QTask where
  | one (v : Yason) (i : Nat)
  | many (vs : List Yason) (i : Nat)
  | kvs (es : List (ByteKey × Yason)) (i : Nat)
  | multi (ss : List SingleStep) (elems : List Yason) (i : Nat)
  | relax (v : Yason) (i : Nat)

/-- Content size of a task, the primary termination component (proof-side
only: `SizeOf` on the nested `Yason` tree has no compiled code). -/
noncomputable def QTask.msize : QTask → Nat
  | .one v _ => sizeOf v
  | .many vs _ => sizeOf vs
  | .kvs es _ => sizeOf es
  | .multi _ elems _ => sizeOf elems
  | .relax v _ => sizeOf v

/-- Step position of a task. -/
def QTask.idx : QTask → Nat
  | .one _ i => i
  | .many _ i => i
  | .kvs _ i => i
  | .multi _ _ i => i
  | .relax _ i => i

/-- Tie-break between task kinds at equal size and position. -/
def QTask.tag : QTask → Nat
  | .one _ _ => 0
  | .many _ _ => 1
  | .kvs _ _ => 1
  | .multi _ _ _ => 2
  | .relax _ _ => 3

/-- Remaining cells of a multi step. -/
def QTask.aux : QTask → Nat
  | .multi ss _ _ => ss.length
  | _ => 0

/-- `Object::lazy_get` with the found value's size bound attached, so the
selector's recursion on the child is visibly decreasing. -/
def objectLazyGetS (entries : List (ByteKey × Yason)) (k : ByteKey) :
    Option {v : Yason // sizeOf v < sizeOf entries} :=
  match h : objectLazyGet entries k with
  | some v => some ⟨v, objectLazyGet_sizeOf entries k v h⟩
  | none => none

theorem objectLazyGetS_val (es : List (ByteKey × Yason)) (k : ByteKey) :
    (objectLazyGetS es k).map Subtype.val = objectLazyGet es k := by
  unfold objectLazyGetS
  split <;> simp_all

/-- Embedding of `Selector::query_internal` and its helper matchers
(src/path/query.rs).  `steps` is the parsed path, `ww` the wrapper flag, `fe`
the exists flag; the query buffer is threaded explicitly and reader errors
cannot occur on the tree view, so the only error sources are the
`MultiValuesWithoutWrapper` check at a match and the `unreachable!` on a
`Root` step during recursion. -/
def Selector.run (steps : List Step) (ww fe : Bool) :
    QTask → List Yason → Except YasonError (Bool × List Yason)
  | .one v i, buf =>
    if hi : i < steps.length then
      match steps[i] with
      | .root => .error .Unreachable
      | .object (.key k) =>
        match v with
        | .obj es =>
          match objectLazyGetS es k with
          | some child => Selector.run steps ww fe (.one child.1 (i + 1)) buf
          | none => .ok (false, buf)
        | .arr elems => Selector.run steps ww fe (.many elems i) buf
        | _ => .ok (false, buf)
      | .object .wildcard =>
        match v with
        | .obj es => Selector.run steps ww fe (.kvs es (i + 1)) buf
        | .arr elems => Selector.run steps ww fe (.many elems i) buf
        | _ => .ok (false, buf)
      | .array astep =>
        match v with
        | .arr elems =>
          match astep with
          | .index idx =>
            if h : idx < elems.length then
              Selector.run steps ww fe (.one elems[idx] (i + 1)) buf
            else .ok (false, buf)
          | .last minus =>
            if h : minus < elems.length then
              Selector.run steps ww fe (.one elems[elems.length - 1 - minus] (i + 1)) buf
            else .ok (false, buf)
          | .range b e =>
            if elems.length = 0 then .ok (false, buf)
            else
              match find_range b e (elems.length - 1) with
              | some p =>
                Selector.run steps ww fe
                  (.many ((elems.drop p.1).take (p.2 + 1 - p.1)) (i + 1)) buf
              | none => .ok (false, buf)
          | .multiple ss =>
            if elems.length = 0 then .ok (false, buf)
            else Selector.run steps ww fe (.multi ss elems i) buf
          | .wildcard => Selector.run steps ww fe (.many elems (i + 1)) buf
        | vOther =>
          match astep with
          | .index idx =>
            if idx = 0 then Selector.run steps ww fe (.relax vOther (i + 1)) buf
            else .ok (false, buf)
          | .last minus =>
            if minus = 0 then Selector.run steps ww fe (.relax vOther (i + 1)) buf
            else .ok (false, buf)
          | .range b e =>
            if non_array_range_step_relaxed_match b e then
              Selector.run steps ww fe (.relax vOther (i + 1)) buf
            else .ok (false, buf)
          | .multiple ss =>
            if non_array_multi_steps_relaxed_match ss then
              Selector.run steps ww fe (.relax vOther (i + 1)) buf
            else .ok (false, buf)
          | .wildcard => Selector.run steps ww fe (.relax vOther (i + 1)) buf
      | .descendent k =>
        match v with
        | .obj es =>
          match objectLazyGetS es k with
          | some child => do
            let r ← Selector.run steps ww fe (.one child.1 (i + 1)) buf
            if fe ∧ r.1 then .ok (true, r.2)
            else Selector.run steps ww fe (.kvs es i) r.2
          | none => Selector.run steps ww fe (.kvs es i) buf
        | .arr elems => Selector.run steps ww fe (.many elems i) buf
        | _ => .ok (false, buf)
      | .func f =>
        let val : Yason :=
          match f with
          | .count => .null
          | .size =>
            match v with
            | .arr elems => .num (Int.ofNat elems.length)
            | _ => .num 1
          | .type => .str (dataTypeName v)
        .ok (false, buf ++ [val])
    else
      if fe then .ok (true, buf)
      else if ww = false ∧ buf.isEmpty = false then .error .MultiValuesWithoutWrapper
      else .ok (true, buf ++ [v])
  | .many [] _, buf => .ok (false, buf)
  | .many (v :: vs) i, buf => do
    let r ← Selector.run steps ww fe (.one v i) buf
    if fe ∧ r.1 then .ok (true, r.2)
    else Selector.run steps ww fe (.many vs i) r.2
  | .kvs [] _, buf => .ok (false, buf)
  | .kvs ((k, v) :: es) i, buf => do
    let r ← Selector.run steps ww fe (.one v i) buf
    if fe ∧ r.1 then .ok (true, r.2)
    else Selector.run steps ww fe (.kvs es i) r.2
  | .multi [] _ _, buf => .ok (false, buf)
  | .multi (s :: ss) elems i, buf =>
    match s with
    | .single (.index idx) =>
      if h : idx < elems.length then do
        let r ← Selector.run steps ww fe (.one elems[idx] (i + 1)) buf
        if fe ∧ r.1 then .ok (true, r.2)
        else Selector.run steps ww fe (.multi ss elems i) r.2
      else Selector.run steps ww fe (.multi ss elems i) buf
    | .single (.last minus) =>
      if h : minus < elems.length then do
        let r ← Selector.run steps ww fe (.one elems[elems.length - 1 - minus] (i + 1)) buf
        if fe ∧ r.1 then .ok (true, r.2)
        else Selector.run steps ww fe (.multi ss elems i) r.2
      else Selector.run steps ww fe (.multi ss elems i) buf
    | .range b e =>
      match find_range b e (elems.length - 1) with
      | some p =>
        match Selector.run steps ww fe
          (.many ((elems.drop p.1).take (p.2 + 1 - p.1)) (i + 1)) buf with
        | .error err => .error err
        | .ok r =>
          if r.1 then .ok (true, r.2)
          else Selector.run steps ww fe (.multi ss elems i) r.2
      | none => Selector.run steps ww fe (.multi ss elems i) buf
  | .relax v j, buf =>
    if hj : j < steps.length then
      match steps[j] with
      | .array astep =>
        match astep with
        | .index idx =>
          if idx = 0 then Selector.run steps ww fe (.relax v (j + 1)) buf
          else .ok (false, buf)
        | .last minus =>
          if minus = 0 then Selector.run steps ww fe (.relax v (j + 1)) buf
          else .ok (false, buf)
        | .range b e =>
          if non_array_range_step_relaxed_match b e then
            Selector.run steps ww fe (.relax v (j + 1)) buf
          else .ok (false, buf)
        | .multiple ss =>
          if non_array_multi_steps_relaxed_match ss then
            Selector.run steps ww fe (.relax v (j + 1)) buf
          else .ok (false, buf)
        | .wildcard => Selector.run steps ww fe (.relax v (j + 1)) buf
      | _ => Selector.run steps ww fe (.one v j) buf
    else Selector.run steps ww fe (.one v j) buf
termination_by t _buf => (QTask.msize t, steps.length - QTask.idx t, QTask.tag t, QTask.aux t)
decreasing_by
  all_goals
    simp only [QTask.msize, QTask.idx, QTask.tag, QTask.aux, Yason.arr.sizeOf_spec,
      Yason.obj.sizeOf_spec, List.cons.sizeOf_spec, Prod.mk.sizeOf_spec, List.length_cons]
  all_goals apply lex4_lt
  all_goals
    first
    | (have hchild := child.2
       omega)
    | (have hget := sizeOf_getElem_lt elems idx (by omega)
       omega)
    | (have hget := sizeOf_getElem_lt elems (elems.length - 1 - minus) (by omega)
       omega)
    | (have ht := sizeOf_take_le (p.2 + 1 - p.1) (elems.drop p.1)
       have hd := sizeOf_drop_le p.1 elems
       omega)
    | omega

def rootless_tail (steps : List Step) : Bool :=
  (steps.drop 1).all fun s => match s with | .root => false | _ => true

def funcless_tail (steps : List Step) : Bool :=
  (steps.drop 1).all fun s => match s with | .func _ => false | _ => true

theorem rootless_tail_spec {steps : List Step} (h : rootless_tail steps = true)
    {j : Nat} (hj : 1 ≤ j) (hjl : j < steps.length) : steps[j] ≠ Step.root := by
  intro hs
  have hmem : Step.root ∈ steps.drop 1 := by
    have : (steps.drop 1)[j - 1]? = some Step.root := by
      rw [List.getElem?_drop]
      have : 1 + (j - 1) = j := by omega
      rw [this, List.getElem?_eq_getElem hjl, hs]
    exact List.getElem?_mem this
  have := List.all_eq_true.mp h _ hmem
  simp at this

theorem funcless_tail_spec {steps : List Step} (h : funcless_tail steps = true)
    {j : Nat} (hj : 1 ≤ j) (hjl : j < steps.length) (f : FuncStep) :
    steps[j] ≠ Step.func f := by
  intro hs
  have hmem : Step.func f ∈ steps.drop 1 := by
    have : (steps.drop 1)[j - 1]? = some (Step.func f) := by
      rw [List.getElem?_drop]
      have : 1 + (j - 1) = j := by omega
      rw [this, List.getElem?_eq_getElem hjl, hs]
    exact List.getElem?_mem this
  have := List.all_eq_true.mp h _ hmem
  simp at this

def MasterPred (steps : List Step) (t : QTask) (b : Bool) (ext : List Yason) : Prop :=
  (∀ buf, Selector.run steps true false t buf = .ok (b, buf ++ ext)) ∧
  (∀ buf, Selector.run steps true true t buf = .ok (!ext.isEmpty, buf)) ∧
  (∀ buf, buf.length ≤ 1 →
    Selector.run steps false false t buf =
      if buf.length + ext.length ≤ 1 then .ok (b, buf ++ ext)
      else .error .MultiValuesWithoutWrapper)

theorem masterPred_tail {steps : List Step} {t1 t2 : QTask} {b : Bool} {ext : List Yason}
    (hrw : ∀ (ww fe : Bool) (buf : List Yason),
      Selector.run steps ww fe t1 buf = Selector.run steps ww fe t2 buf)
    (h : MasterPred steps t2 b ext) : MasterPred steps t1 b ext := by
  obtain ⟨h1, h2, h3⟩ := h
  exact ⟨fun buf => (hrw _ _ _).trans (h1 buf),
         fun buf => (hrw _ _ _).trans (h2 buf),
         fun buf hb => (hrw _ _ _).trans (h3 buf hb)⟩

theorem masterPred_dead {steps : List Step} {t : QTask}
    (hrw : ∀ (ww fe : Bool) (buf : List Yason),
      Selector.run steps ww fe t buf = .ok (false, buf)) :
    MasterPred steps t false [] := by
  refine ⟨fun buf => ?_, fun buf => ?_, fun buf hb => ?_⟩
  · rw [hrw]; simp
  · rw [hrw]; simp
  · rw [hrw, if_pos (by simpa using hb)]; simp

theorem masterPred_leaf {steps : List Step} {t : QTask} {v : Yason}
    (hrw : ∀ (ww fe : Bool) (buf : List Yason),
      Selector.run steps ww fe t buf =
        if fe = true then .ok (true, buf)
        else if ww = false ∧ buf.isEmpty = false then .error .MultiValuesWithoutWrapper
        else .ok (true, buf ++ [v])) :
    MasterPred steps t true [v] := by
  refine ⟨fun buf => ?_, fun buf => ?_, fun buf hb => ?_⟩
  · rw [hrw]; simp
  · rw [hrw]; simp
  · rw [hrw]
    rcases buf with _ | ⟨x, buf⟩
    · simp
    · simp [List.isEmpty]

theorem masterPred_loop {steps : List Step} {t0 t1 t2 : QTask} {b1 b2 : Bool}
    {e1 e2 : List Yason}
    (hrw : ∀ (ww fe : Bool) (buf : List Yason),
      Selector.run steps ww fe t0 buf =
        match Selector.run steps ww fe t1 buf with
        | .error err => .error err
        | .ok r =>
          if fe = true ∧ r.1 = true then .ok (true, r.2)
          else Selector.run steps ww fe t2 r.2)
    (H1 : MasterPred steps t1 b1 e1) (H2 : MasterPred steps t2 b2 e2) :
    MasterPred steps t0 b2 (e1 ++ e2) := by
  obtain ⟨h11, h12, h13⟩ := H1
  obtain ⟨h21, h22, h23⟩ := H2
  refine ⟨fun buf => ?_, fun buf => ?_, fun buf hb => ?_⟩
  · rw [hrw, h11 buf]
    simp only [Bool.false_eq_true, false_and, if_false]
    rw [h21 (buf ++ e1), List.append_assoc]
  · rw [hrw, h12 buf]
    rcases e1 with _ | ⟨x, e1⟩
    · simp only [List.isEmpty_nil, Bool.not_true, Bool.false_eq_true, and_false, if_false]
      rw [h22 buf]
      simp
    · simp
  · rw [hrw, h13 buf hb]
    by_cases hle : buf.length + e1.length ≤ 1
    · rw [if_pos hle]
      simp only [Bool.false_eq_true, false_and, if_false]
      rw [h23 (buf ++ e1) (by simp; omega), List.append_assoc]
      simp only [List.length_append]
      by_cases hle2 : buf.length + (e1.length + e2.length) ≤ 1
      · rw [if_pos (by omega), if_pos (by simpa using hle2)]
      · rw [if_neg (by omega), if_neg (by simpa using hle2)]
    · rw [if_neg hle]
      rw [if_neg (by simp; omega)]

theorem masterPred_loop_range {steps : List Step} {t0 t1 t2 : QTask} {b1 b2 : Bool}
    {e1 e2 : List Yason}
    (hrw : ∀ (ww fe : Bool) (buf : List Yason),
      Selector.run steps ww fe t0 buf =
        match Selector.run steps ww fe t1 buf with
        | .error err => .error err
        | .ok r =>
          if r.1 = true then .ok (true, r.2)
          else Selector.run steps ww fe t2 r.2)
    (hb1 : b1 = false)
    (H1 : MasterPred steps t1 b1 e1) (H2 : MasterPred steps t2 b2 e2) :
    MasterPred steps t0 b2 (e1 ++ e2) := by
  subst hb1
  obtain ⟨h11, h12, h13⟩ := H1
  obtain ⟨h21, h22, h23⟩ := H2
  refine ⟨fun buf => ?_, fun buf => ?_, fun buf hb => ?_⟩
  · rw [hrw, h11 buf]
    simp only [Bool.false_eq_true, if_false]
    rw [h21 (buf ++ e1), List.append_assoc]
  · rw [hrw, h12 buf]
    rcases e1 with _ | ⟨x, e1⟩
    · simp only [List.isEmpty_nil, Bool.not_true, Bool.false_eq_true, if_false]
      rw [h22 buf]
      simp
    · simp
  · rw [hrw, h13 buf hb]
    by_cases hle : buf.length + e1.length ≤ 1
    · rw [if_pos hle]
      simp only [Bool.false_eq_true, if_false]
      rw [h23 (buf ++ e1) (by simp; omega), List.append_assoc]
      simp only [List.length_append]
      by_cases hle2 : buf.length + (e1.length + e2.length) ≤ 1
      · rw [if_pos (by omega), if_pos (by simpa using hle2)]
      · rw [if_neg (by omega), if_neg (by simpa using hle2)]
    · rw [if_neg hle]
      rw [if_neg (by simp; omega)]

theorem run_master (steps : List Step)
    (HR : rootless_tail steps = true) (HF : funcless_tail steps = true) :
    ∀ (t : QTask) (buf0 : List Yason), 1 ≤ QTask.idx t →
      ∃ (b : Bool) (ext : List Yason),
        (QTask.tag t = 1 ∨ QTask.tag t = 2 → b = false) ∧ MasterPred steps t b ext := by
  intro t buf0
  induction t, buf0 using Selector.run.induct steps true false with
  | case1 v i buf hi hs =>
    intro hidx
    exact absurd hs (rootless_tail_spec HR hidx hi)
  | case2 i buf hi k hs es child hfound ih =>
    intro hidx
    obtain ⟨b, ext, htag, hm⟩ := ih (by simp only [QTask.idx] at hidx ⊢; omega)
    refine ⟨b, ext, by intro h; simp [QTask.tag] at h, masterPred_tail ?_ hm⟩
    intro ww fe buf'
    rw [Selector.run.eq_def]
    simp only [hs, hfound, dif_pos hi]
  | case3 i buf hi k hs es hnone =>
    intro hidx
    refine ⟨false, [], fun _ => rfl, masterPred_dead ?_⟩
    intro ww fe buf'
    rw [Selector.run.eq_def]
    simp only [hs, hnone, dif_pos hi]
  | case4 i buf hi k hs elems ih =>
    intro hidx
    obtain ⟨b, ext, htag, hm⟩ := ih (by simp only [QTask.idx] at hidx ⊢; omega)
    refine ⟨b, ext, by intro h; simp [QTask.tag] at h, masterPred_tail ?_ hm⟩
    intro ww fe buf'
    rw [Selector.run.eq_def]
    simp only [hs, dif_pos hi]
  | case5 v i buf hi k hs hnobj hnarr =>
    intro hidx
    refine ⟨false, [], fun _ => rfl, masterPred_dead ?_⟩
    intro ww fe buf'
    rw [Selector.run.eq_def]
    rcases v with _ | b2 | n2 | s2 | elems2 | es2
    · simp only [hs, dif_pos hi]
    · simp only [hs, dif_pos hi]
    · simp only [hs, dif_pos hi]
    · simp only [hs, dif_pos hi]
    · exact absurd rfl (hnarr elems2)
    · exact absurd rfl (hnobj es2)
  | case6 i buf hi hs es ih =>
    intro hidx
    obtain ⟨b, ext, htag, hm⟩ := ih (by simp only [QTask.idx] at hidx ⊢; omega)
    refine ⟨b, ext, by intro h; simp [QTask.tag] at h, masterPred_tail ?_ hm⟩
    intro ww fe buf'
    rw [Selector.run.eq_def]
    simp only [hs, dif_pos hi]
  | case7 i buf hi hs elems ih =>
    intro hidx
    obtain ⟨b, ext, htag, hm⟩ := ih (by simp only [QTask.idx] at hidx ⊢; omega)
    refine ⟨b, ext, by intro h; simp [QTask.tag] at h, masterPred_tail ?_ hm⟩
    intro ww fe buf'
    rw [Selector.run.eq_def]
    simp only [hs, dif_pos hi]
  | case8 v i buf hi hs hnobj hnarr =>
    intro hidx
    refine ⟨false, [], fun _ => rfl, masterPred_dead ?_⟩
    intro ww fe buf'
    rw [Selector.run.eq_def]
    rcases v with _ | b2 | n2 | s2 | elems2 | es2
    · simp only [hs, dif_pos hi]
    · simp only [hs, dif_pos hi]
    · simp only [hs, dif_pos hi]
    · simp only [hs, dif_pos hi]
    · exact absurd rfl (hnarr elems2)
    · exact absurd rfl (hnobj es2)
  | case9 i buf hi elems idx hlt hs ih =>
    intro hidx
    obtain ⟨b, ext, htag, hm⟩ := ih (by simp only [QTask.idx] at hidx ⊢; omega)
    refine ⟨b, ext, by intro h; simp [QTask.tag] at h, masterPred_tail ?_ hm⟩
    intro ww fe buf'
    rw [Selector.run.eq_def]
    simp only [hs, dif_pos hi, dif_pos hlt]
  | case10 i buf hi elems idx hnlt hs =>
    intro hidx
    refine ⟨false, [], fun _ => rfl, masterPred_dead ?_⟩
    intro ww fe buf'
    rw [Selector.run.eq_def]
    simp only [hs, dif_pos hi, dif_neg hnlt]
  | case11 i buf hi elems minus hlt hs ih =>
    intro hidx
    obtain ⟨b, ext, htag, hm⟩ := ih (by simp only [QTask.idx] at hidx ⊢; omega)
    refine ⟨b, ext, by intro h; simp [QTask.tag] at h, masterPred_tail ?_ hm⟩
    intro ww fe buf'
    rw [Selector.run.eq_def]
    simp only [hs, dif_pos hi, dif_pos hlt]
  | case12 i buf hi elems minus hnlt hs =>
    intro hidx
    refine ⟨false, [], fun _ => rfl, masterPred_dead ?_⟩
    intro ww fe buf'
    rw [Selector.run.eq_def]
    simp only [hs, dif_pos hi, dif_neg hnlt]
  | case13 i buf hi elems a b hlen hs =>
    intro hidx
    refine ⟨false, [], fun _ => rfl, masterPred_dead ?_⟩
    intro ww fe buf'
    rw [Selector.run.eq_def]
    simp only [hs, dif_pos hi, if_pos hlen]
  | case14 i buf hi elems a b hlen p hfr hs ih =>
    intro hidx
    obtain ⟨bb, ext, htag, hm⟩ := ih (by simp only [QTask.idx] at hidx ⊢; omega)
    refine ⟨bb, ext, by intro h; simp [QTask.tag] at h, masterPred_tail ?_ hm⟩
    intro ww fe buf'
    rw [Selector.run.eq_def]
    simp only [hs, dif_pos hi, if_neg hlen, hfr]
  | case15 i buf hi elems a b hlen hfr hs =>
    intro hidx
    refine ⟨false, [], fun _ => rfl, masterPred_dead ?_⟩
    intro ww fe buf'
    rw [Selector.run.eq_def]
    simp only [hs, dif_pos hi, if_neg hlen, hfr]
  | case16 i buf hi elems ss0 hlen hs =>
    intro hidx
    refine ⟨false, [], fun _ => rfl, masterPred_dead ?_⟩
    intro ww fe buf'
    rw [Selector.run.eq_def]
    simp only [hs, dif_pos hi, if_pos hlen]
  | case17 i buf hi elems ss0 hlen hs ih =>
    intro hidx
    obtain ⟨b, ext, htag, hm⟩ := ih (by simp only [QTask.idx] at hidx ⊢; omega)
    refine ⟨b, ext, by intro h; simp [QTask.tag] at h, masterPred_tail ?_ hm⟩
    intro ww fe buf'
    rw [Selector.run.eq_def]
    simp only [hs, dif_pos hi, if_neg hlen]
  | case18 i buf hi elems hs ih =>
    intro hidx
    obtain ⟨b, ext, htag, hm⟩ := ih (by simp only [QTask.idx] at hidx ⊢; omega)
    refine ⟨b, ext, by intro h; simp [QTask.tag] at h, masterPred_tail ?_ hm⟩
    intro ww fe buf'
    rw [Selector.run.eq_def]
    simp only [hs, dif_pos hi]
  | case19 i buf hi vO hnarr hs ih =>
    intro hidx
    obtain ⟨b, ext, htag, hm⟩ := ih (by simp only [QTask.idx] at hidx ⊢; omega)
    refine ⟨b, ext, by intro h; simp [QTask.tag] at h, masterPred_tail ?_ hm⟩
    intro ww fe buf'
    rw [Selector.run.eq_def]
    rcases vO with _ | b2 | n2 | s2 | elems2 | es2
    · simp only [hs, dif_pos hi, if_pos rfl, if_true]
    · simp only [hs, dif_pos hi, if_pos rfl, if_true]
    · simp only [hs, dif_pos hi, if_pos rfl, if_true]
    · simp only [hs, dif_pos hi, if_pos rfl, if_true]
    · exact absurd rfl (hnarr elems2)
    · simp only [hs, dif_pos hi, if_pos rfl, if_true]
  | case20 i buf hi vO hnarr idx hne hs =>
    intro hidx
    refine ⟨false, [], fun _ => rfl, masterPred_dead ?_⟩
    intro ww fe buf'
    rw [Selector.run.eq_def]
    rcases vO with _ | b2 | n2 | s2 | elems2 | es2
    · simp only [hs, dif_pos hi, if_neg hne]
    · simp only [hs, dif_pos hi, if_neg hne]
    · simp only [hs, dif_pos hi, if_neg hne]
    · simp only [hs, dif_pos hi, if_neg hne]
    · exact absurd rfl (hnarr elems2)
    · simp only [hs, dif_pos hi, if_neg hne]
  | case21 i buf hi vO hnarr hs ih =>
    intro hidx
    obtain ⟨b, ext, htag, hm⟩ := ih (by simp only [QTask.idx] at hidx ⊢; omega)
    refine ⟨b, ext, by intro h; simp [QTask.tag] at h, masterPred_tail ?_ hm⟩
    intro ww fe buf'
    rw [Selector.run.eq_def]
    rcases vO with _ | b2 | n2 | s2 | elems2 | es2
    · simp only [hs, dif_pos hi, if_pos rfl, if_true]
    · simp only [hs, dif_pos hi, if_pos rfl, if_true]
    · simp only [hs, dif_pos hi, if_pos rfl, if_true]
    · simp only [hs, dif_pos hi, if_pos rfl, if_true]
    · exact absurd rfl (hnarr elems2)
    · simp only [hs, dif_pos hi, if_pos rfl, if_true]
  | case22 i buf hi vO hnarr minus hne hs =>
    intro hidx
    refine ⟨false, [], fun _ => rfl, masterPred_dead ?_⟩
    intro ww fe buf'
    rw [Selector.run.eq_def]
    rcases vO with _ | b2 | n2 | s2 | elems2 | es2
    · simp only [hs, dif_pos hi, if_neg hne]
    · simp only [hs, dif_pos hi, if_neg hne]
    · simp only [hs, dif_pos hi, if_neg hne]
    · simp only [hs, dif_pos hi, if_neg hne]
    · exact absurd rfl (hnarr elems2)
    · simp only [hs, dif_pos hi, if_neg hne]
  | case23 i buf hi vO hnarr a b hm2 hs ih =>
    intro hidx
    obtain ⟨bb, ext, htag, hm⟩ := ih (by simp only [QTask.idx] at hidx ⊢; omega)
    refine ⟨bb, ext, by intro h; simp [QTask.tag] at h, masterPred_tail ?_ hm⟩
    intro ww fe buf'
    rw [Selector.run.eq_def]
    rcases vO with _ | b2 | n2 | s2 | elems2 | es2
    · simp only [hs, dif_pos hi, if_pos hm2]
    · simp only [hs, dif_pos hi, if_pos hm2]
    · simp only [hs, dif_pos hi, if_pos hm2]
    · simp only [hs, dif_pos hi, if_pos hm2]
    · exact absurd rfl (hnarr elems2)
    · simp only [hs, dif_pos hi, if_pos hm2]
  | case24 i buf hi vO hnarr a b hnm hs =>
    intro hidx
    refine ⟨false, [], fun _ => rfl, masterPred_dead ?_⟩
    intro ww fe buf'
    rw [Selector.run.eq_def]
    rcases vO with _ | b2 | n2 | s2 | elems2 | es2
    · simp only [hs, dif_pos hi, if_neg hnm]
    · simp only [hs, dif_pos hi, if_neg hnm]
    · simp only [hs, dif_pos hi, if_neg hnm]
    · simp only [hs, dif_pos hi, if_neg hnm]
    · exact absurd rfl (hnarr elems2)
    · simp only [hs, dif_pos hi, if_neg hnm]
  | case25 i buf hi vO hnarr ss0 hm2 hs ih =>
    intro hidx
    obtain ⟨b, ext, htag, hm⟩ := ih (by simp only [QTask.idx] at hidx ⊢; omega)
    refine ⟨b, ext, by intro h; simp [QTask.tag] at h, masterPred_tail ?_ hm⟩
    intro ww fe buf'
    rw [Selector.run.eq_def]
    rcases vO with _ | b2 | n2 | s2 | elems2 | es2
    · simp only [hs, dif_pos hi, if_pos hm2]
    · simp only [hs, dif_pos hi, if_pos hm2]
    · simp only [hs, dif_pos hi, if_pos hm2]
    · simp only [hs, dif_pos hi, if_pos hm2]
    · exact absurd rfl (hnarr elems2)
    · simp only [hs, dif_pos hi, if_pos hm2]
  | case26 i buf hi vO hnarr ss0 hnm hs =>
    intro hidx
    refine ⟨false, [], fun _ => rfl, masterPred_dead ?_⟩
    intro ww fe buf'
    rw [Selector.run.eq_def]
    rcases vO with _ | b2 | n2 | s2 | elems2 | es2
    · simp only [hs, dif_pos hi, if_neg hnm]
    · simp only [hs, dif_pos hi, if_neg hnm]
    · simp only [hs, dif_pos hi, if_neg hnm]
    · simp only [hs, dif_pos hi, if_neg hnm]
    · exact absurd rfl (hnarr elems2)
    · simp only [hs, dif_pos hi, if_neg hnm]
  | case27 i buf hi vO hnarr hs ih =>
    intro hidx
    obtain ⟨b, ext, htag, hm⟩ := ih (by simp only [QTask.idx] at hidx ⊢; omega)
    refine ⟨b, ext, by intro h; simp [QTask.tag] at h, masterPred_tail ?_ hm⟩
    intro ww fe buf'
    rw [Selector.run.eq_def]
    rcases vO with _ | b2 | n2 | s2 | elems2 | es2
    · simp only [hs, dif_pos hi]
    · simp only [hs, dif_pos hi]
    · simp only [hs, dif_pos hi]
    · simp only [hs, dif_pos hi]
    · exact absurd rfl (hnarr elems2)
    · simp only [hs, dif_pos hi]
  | case28 i buf hi k hs es child hfound ihc ihk =>
    intro hidx
    obtain ⟨b1, e1, htag1, hm1⟩ := ihc (by simp only [QTask.idx] at hidx ⊢; omega)
    obtain ⟨b2, e2, htag2, hm2⟩ := ihk (false, []) (by simp only [QTask.idx] at hidx ⊢; omega)
    refine ⟨b2, e1 ++ e2, by intro h; simp [QTask.tag] at h, masterPred_loop ?_ hm1 hm2⟩
    intro ww fe buf'
    rw [Selector.run.eq_def]
    simp only [hs, hfound, dif_pos hi, bind, Except.bind]
    cases Selector.run steps ww fe (QTask.one child.1 (i + 1)) buf' <;> rfl
  | case29 i buf hi k hs es hnone ih =>
    intro hidx
    obtain ⟨b, ext, htag, hm⟩ := ih (by simp only [QTask.idx] at hidx ⊢; omega)
    refine ⟨b, ext, by intro h; simp [QTask.tag] at h, masterPred_tail ?_ hm⟩
    intro ww fe buf'
    rw [Selector.run.eq_def]
    simp only [hs, hnone, dif_pos hi]
  | case30 i buf hi k hs elems ih =>
    intro hidx
    obtain ⟨b, ext, htag, hm⟩ := ih (by simp only [QTask.idx] at hidx ⊢; omega)
    refine ⟨b, ext, by intro h; simp [QTask.tag] at h, masterPred_tail ?_ hm⟩
    intro ww fe buf'
    rw [Selector.run.eq_def]
    simp only [hs, dif_pos hi]
  | case31 v i buf hi k hs hnobj hnarr =>
    intro hidx
    refine ⟨false, [], fun _ => rfl, masterPred_dead ?_⟩
    intro ww fe buf'
    rw [Selector.run.eq_def]
    rcases v with _ | b2 | n2 | s2 | elems2 | es2
    · simp only [hs, dif_pos hi]
    · simp only [hs, dif_pos hi]
    · simp only [hs, dif_pos hi]
    · simp only [hs, dif_pos hi]
    · exact absurd rfl (hnarr elems2)
    · exact absurd rfl (hnobj es2)
  | case32 v i buf hi f hs =>
    intro hidx
    exact absurd hs (funcless_tail_spec HF hidx hi f)
  | case33 v i buf hni hfe =>
    intro hidx
    exact absurd hfe (by simp)
  | case34 v i buf hni hnfe hww =>
    intro hidx
    exact absurd hww (by simp)
  | case35 v i buf hni hnfe hnww =>
    intro hidx
    refine ⟨true, [v], by intro h; simp [QTask.tag] at h, masterPred_leaf ?_⟩
    intro ww fe buf'
    rw [Selector.run.eq_def]
    simp only [dif_neg hni]
  | case36 i buf =>
    intro hidx
    exact ⟨false, [], fun _ => rfl, masterPred_dead fun ww fe buf' => by
      rw [Selector.run.eq_def]⟩
  | case37 v vs i buf ih2 ih1 =>
    intro hidx
    obtain ⟨b1, e1, htag1, hm1⟩ := ih2 (by simp only [QTask.idx] at hidx ⊢; omega)
    obtain ⟨b2, e2, htag2, hm2⟩ := ih1 (false, []) (by simp only [QTask.idx] at hidx ⊢; omega)
    refine ⟨b2, e1 ++ e2, fun _ => htag2 (by simp [QTask.tag]), masterPred_loop ?_ hm1 hm2⟩
    intro ww fe buf'
    rw [Selector.run.eq_def]
    simp only [bind, Except.bind]
    cases Selector.run steps ww fe (QTask.one v i) buf' <;> rfl
  | case38 i buf =>
    intro hidx
    exact ⟨false, [], fun _ => rfl, masterPred_dead fun ww fe buf' => by
      rw [Selector.run.eq_def]⟩
  | case39 k v es i buf ih2 ih1 =>
    intro hidx
    obtain ⟨b1, e1, htag1, hm1⟩ := ih2 (by simp only [QTask.idx] at hidx ⊢; omega)
    obtain ⟨b2, e2, htag2, hm2⟩ := ih1 (false, []) (by simp only [QTask.idx] at hidx ⊢; omega)
    refine ⟨b2, e1 ++ e2, fun _ => htag2 (by simp [QTask.tag]), masterPred_loop ?_ hm1 hm2⟩
    intro ww fe buf'
    rw [Selector.run.eq_def]
    simp only [bind, Except.bind]
    cases Selector.run steps ww fe (QTask.one v i) buf' <;> rfl
  | case40 elems i buf =>
    intro hidx
    exact ⟨false, [], fun _ => rfl, masterPred_dead fun ww fe buf' => by
      rw [Selector.run.eq_def]⟩
  | case41 ss elems i buf idx hlt ih2 ih1 =>
    intro hidx
    obtain ⟨b1, e1, htag1, hm1⟩ := ih2 (by simp only [QTask.idx] at hidx ⊢; omega)
    obtain ⟨b2, e2, htag2, hm2⟩ := ih1 (false, []) (by simp only [QTask.idx] at hidx ⊢; omega)
    refine ⟨b2, e1 ++ e2, fun _ => htag2 (by simp [QTask.tag]), masterPred_loop ?_ hm1 hm2⟩
    intro ww fe buf'
    rw [Selector.run.eq_def]
    simp only [dif_pos hlt, bind, Except.bind]
    cases Selector.run steps ww fe (QTask.one elems[idx] (i + 1)) buf' <;> rfl
  | case42 ss elems i buf idx hnlt ih =>
    intro hidx
    obtain ⟨b, ext, htag, hm⟩ := ih (by simp only [QTask.idx] at hidx ⊢; omega)
    refine ⟨b, ext, fun _ => htag (by simp [QTask.tag]), masterPred_tail ?_ hm⟩
    intro ww fe buf'
    rw [Selector.run.eq_def]
    simp only [dif_neg hnlt]
  | case43 ss elems i buf minus hlt ih2 ih1 =>
    intro hidx
    obtain ⟨b1, e1, htag1, hm1⟩ := ih2 (by simp only [QTask.idx] at hidx ⊢; omega)
    obtain ⟨b2, e2, htag2, hm2⟩ := ih1 (false, []) (by simp only [QTask.idx] at hidx ⊢; omega)
    refine ⟨b2, e1 ++ e2, fun _ => htag2 (by simp [QTask.tag]), masterPred_loop ?_ hm1 hm2⟩
    intro ww fe buf'
    rw [Selector.run.eq_def]
    simp only [dif_pos hlt, bind, Except.bind]
    cases Selector.run steps ww fe (QTask.one elems[elems.length - 1 - minus] (i + 1)) buf' <;> rfl
  | case44 ss elems i buf minus hnlt ih =>
    intro hidx
    obtain ⟨b, ext, htag, hm⟩ := ih (by simp only [QTask.idx] at hidx ⊢; omega)
    refine ⟨b, ext, fun _ => htag (by simp [QTask.tag]), masterPred_tail ?_ hm⟩
    intro ww fe buf'
    rw [Selector.run.eq_def]
    simp only [dif_neg hnlt]
  | case45 ss elems i buf lf rf p hfr err herr ih =>
    intro hidx
    obtain ⟨b1, e1, htag1, hm1⟩ := ih (by simp only [QTask.idx] at hidx ⊢; omega)
    have := hm1.1 buf
    rw [herr] at this
    exact absurd this (by simp)
  | case46 ss elems i buf lf rf p hfr r hok hr1 ih =>
    intro hidx
    obtain ⟨b1, e1, htag1, hm1⟩ := ih (by simp only [QTask.idx] at hidx ⊢; omega)
    have hb1 : b1 = false := htag1 (by simp [QTask.tag])
    have := hm1.1 buf
    rw [hok] at this
    injection this with this
    rw [this] at hr1
    simp [hb1] at hr1
  | case47 ss elems i buf lf rf p hfr r hok hnr1 ihm ihrest =>
    intro hidx
    obtain ⟨b1, e1, htag1, hm1⟩ := ihm (by simp only [QTask.idx] at hidx ⊢; omega)
    obtain ⟨b2, e2, htag2, hm2⟩ := ihrest (by simp only [QTask.idx] at hidx ⊢; omega)
    refine ⟨b2, e1 ++ e2, fun _ => htag2 (by simp [QTask.tag]),
      masterPred_loop_range ?_ (htag1 (by simp [QTask.tag])) hm1 hm2⟩
    intro ww fe buf'
    rw [Selector.run.eq_def]
    simp only [hfr]
  | case48 ss elems i buf lf rf hfr ih =>
    intro hidx
    obtain ⟨b, ext, htag, hm⟩ := ih (by simp only [QTask.idx] at hidx ⊢; omega)
    refine ⟨b, ext, fun _ => htag (by simp [QTask.tag]), masterPred_tail ?_ hm⟩
    intro ww fe buf'
    rw [Selector.run.eq_def]
    simp only [hfr]
  | case49 v j buf hj hs ih =>
    intro hidx
    obtain ⟨b, ext, htag, hm⟩ := ih (by simp only [QTask.idx] at hidx ⊢; omega)
    refine ⟨b, ext, by intro h; simp [QTask.tag] at h, masterPred_tail ?_ hm⟩
    intro ww fe buf'
    rw [Selector.run.eq_def]
    simp only [hs, dif_pos hj, if_pos rfl, if_true]
  | case50 v j buf hj idx hne hs =>
    intro hidx
    refine ⟨false, [], fun _ => rfl, masterPred_dead ?_⟩
    intro ww fe buf'
    rw [Selector.run.eq_def]
    simp only [hs, dif_pos hj, if_neg hne]
  | case51 v j buf hj hs ih =>
    intro hidx
    obtain ⟨b, ext, htag, hm⟩ := ih (by simp only [QTask.idx] at hidx ⊢; omega)
    refine ⟨b, ext, by intro h; simp [QTask.tag] at h, masterPred_tail ?_ hm⟩
    intro ww fe buf'
    rw [Selector.run.eq_def]
    simp only [hs, dif_pos hj, if_pos rfl, if_true]
  | case52 v j buf hj minus hne hs =>
    intro hidx
    refine ⟨false, [], fun _ => rfl, masterPred_dead ?_⟩
    intro ww fe buf'
    rw [Selector.run.eq_def]
    simp only [hs, dif_pos hj, if_neg hne]
  | case53 v j buf hj a b hm2 hs ih =>
    intro hidx
    obtain ⟨bb, ext, htag, hm⟩ := ih (by simp only [QTask.idx] at hidx ⊢; omega)
    refine ⟨bb, ext, by intro h; simp [QTask.tag] at h, masterPred_tail ?_ hm⟩
    intro ww fe buf'
    rw [Selector.run.eq_def]
    simp only [hs, dif_pos hj, if_pos hm2]
  | case54 v j buf hj a b hnm hs =>
    intro hidx
    refine ⟨false, [], fun _ => rfl, masterPred_dead ?_⟩
    intro ww fe buf'
    rw [Selector.run.eq_def]
    simp only [hs, dif_pos hj, if_neg hnm]
  | case55 v j buf hj ss0 hm2 hs ih =>
    intro hidx
    obtain ⟨b, ext, htag, hm⟩ := ih (by simp only [QTask.idx] at hidx ⊢; omega)
    refine ⟨b, ext, by intro h; simp [QTask.tag] at h, masterPred_tail ?_ hm⟩
    intro ww fe buf'
    rw [Selector.run.eq_def]
    simp only [hs, dif_pos hj, if_pos hm2]
  | case56 v j buf hj ss0 hnm hs =>
    intro hidx
    refine ⟨false, [], fun _ => rfl, masterPred_dead ?_⟩
    intro ww fe buf'
    rw [Selector.run.eq_def]
    simp only [hs, dif_pos hj, if_neg hnm]
  | case57 v j buf hj hs ih =>
    intro hidx
    obtain ⟨b, ext, htag, hm⟩ := ih (by simp only [QTask.idx] at hidx ⊢; omega)
    refine ⟨b, ext, by intro h; simp [QTask.tag] at h, masterPred_tail ?_ hm⟩
    intro ww fe buf'
    rw [Selector.run.eq_def]
    simp only [hs, dif_pos hj]
  | case58 v j buf hj hnarr ih =>
    intro hidx
    obtain ⟨b, ext, htag, hm⟩ := ih (by simp only [QTask.idx] at hidx ⊢; omega)
    refine ⟨b, ext, by intro h; simp [QTask.tag] at h, masterPred_tail ?_ hm⟩
    intro ww fe buf'
    rcases hsj : steps[j] with _ | o | astep | k | f
    · rw [Selector.run.eq_def]
      simp only [dif_pos hj, hsj]
    · rw [Selector.run.eq_def]
      simp only [dif_pos hj, hsj]
    · exact absurd hsj (fun h => hnarr astep h)
    · rw [Selector.run.eq_def]
      simp only [dif_pos hj, hsj]
    · rw [Selector.run.eq_def]
      simp only [dif_pos hj, hsj]
  | case59 v j buf hnj ih =>
    intro hidx
    obtain ⟨b, ext, htag, hm⟩ := ih (by simp only [QTask.idx] at hidx ⊢; omega)
    refine ⟨b, ext, by intro h; simp [QTask.tag] at h, masterPred_tail ?_ hm⟩
    intro ww fe buf'
    rw [Selector.run.eq_def]
    simp only [dif_neg hnj]

/-- Embedding of `PathExpression::has_method` (src/path/mod.rs): more than one
step and the last one is a function step. -/
def has_method (steps : List Step) : Bool :=
  if steps.length ≤ 1 then false
  else
    match steps.getD (steps.length - 1) .root with
    | .func _ => true
    | _ => false

/-- Embedding of `PathExpression::has_method_count`. -/
def has_method_count (steps : List Step) : Bool :=
  if steps.length ≤ 1 then false
  else
    match steps.getD (steps.length - 1) .root with
    | .func .count => true
    | _ => false

/-- Result of `PathExpression::query` (src/path/mod.rs): the `Values`,
`ValuesRef` and serialized `Yason` variants all carry the final query buffer,
so they are modelled by one `values` constructor. -/
inductive QueriedValue where
  | none
  | value (v : Yason)
  | values (vs : List Yason)

/-- Embedding of `PathExpression::query`: the upfront method/wrapper check,
the selector run from step 1 on an empty buffer, the pop in no-wrapper mode,
and the count replacement plus emptiness check in wrapper mode. -/
def PathExpression.query (steps : List Step) (yason : Yason) (with_wrapper : Bool) :
    Except YasonError QueriedValue :=
  if has_method steps = true ∧ with_wrapper = false then .error .MultiValuesWithoutWrapper
  else
    match Selector.run steps with_wrapper false (.one yason 1) [] with
    | .error e => .error e
    | .ok (_, buf) =>
      if with_wrapper = false then
        match buf.getLast? with
        | none => .ok .none
        | some val => .ok (.value val)
      else
        let buf2 := if has_method_count steps = true
          then [Yason.num (Int.ofNat buf.length)] else buf
        if buf2.isEmpty = true then .ok .none
        else .ok (.values buf2)

/-- Embedding of `PathExpression::exists`: reject method paths, then run the
selector with the wrapper and exists flags set. -/
def PathExpression.exists (steps : List Step) (yason : Yason) : Except YasonError Bool :=
  if has_method steps = true then .error .InvalidPathExpression
  else
    match Selector.run steps true true (.one yason 1) [] with
    | .error e => .error e
    | .ok (found, _) => .ok found

/-- The values a path matches in a document: the buffer the wrapper-enabled,
non-exists selector run fills from empty (the error cases cannot occur for
parser-shaped paths, see `run_master`). -/
def queryMatches (steps : List Step) (yason : Yason) : List Yason :=
  match Selector.run steps true false (.one yason 1) [] with
  | .ok (_, buf) => buf
  | .error _ => []

theorem has_method_eq_false {steps : List Step} (HF : funcless_tail steps = true) :
    has_method steps = false := by
  unfold has_method
  by_cases hl : steps.length ≤ 1
  · rw [if_pos hl]
  · rw [if_neg hl]
    have hlt : steps.length - 1 < steps.length := by omega
    rw [List.getD_eq_getElem steps .root hlt]
    rcases hsl : steps[steps.length - 1] with _ | o | a | k | f
    · rfl
    · rfl
    · rfl
    · rfl
    · exact absurd hsl (funcless_tail_spec HF (by omega) hlt f)

theorem has_method_count_eq_false {steps : List Step} (HF : funcless_tail steps = true) :
    has_method_count steps = false := by
  unfold has_method_count
  by_cases hl : steps.length ≤ 1
  · rw [if_pos hl]
  · rw [if_neg hl]
    have hlt : steps.length - 1 < steps.length := by omega
    rw [List.getD_eq_getElem steps .root hlt]
    rcases hsl : steps[steps.length - 1] with _ | o | a | k | f
    · rfl
    · rfl
    · rfl
    · rfl
    · exact absurd hsl (funcless_tail_spec HF (by omega) hlt f)

/-- C2 (amended): for parser-shaped function-free paths, querying with the
wrapper flag disabled returns None on zero matches, Value(v) on exactly one
match v, and the MultiValuesWithoutWrapper error as soon as a second value
matches. -/
theorem c2_no_wrapper_discipline (steps : List Step) (d : Yason)
    (HR : rootless_tail steps = true) (HF : funcless_tail steps = true) :
    PathExpression.query steps d false =
      match queryMatches steps d with
      | [] => .ok .none
      | [v] => .ok (.value v)
      | _ :: _ :: _ => .error .MultiValuesWithoutWrapper := by
  obtain ⟨b, ext, htag, h1, h2, h3⟩ := run_master steps HR HF (.one d 1) [] (by simp [QTask.idx])
  have hqm : queryMatches steps d = ext := by
    unfold queryMatches
    rw [h1 []]
    simp
  unfold PathExpression.query
  rw [if_neg (by simp [has_method_eq_false HF])]
  rw [h3 [] (by simp)]
  rw [hqm]
  rcases ext with _ | ⟨v1, ext⟩
  · simp
  · rcases ext with _ | ⟨v2, ext⟩
    · simp
    · rw [if_neg (by simp)]

/-- C2 counterexample: the path `$.type()` matches exactly one value on the
document `null` (the type name string), yet querying with the wrapper flag
disabled is rejected upfront with MultiValuesWithoutWrapper. -/
theorem c2_counterexample :
    PathExpression.query [Step.root, Step.func .type] Yason.null false =
      .error .MultiValuesWithoutWrapper ∧
    queryMatches [Step.root, Step.func .type] Yason.null =
      [Yason.str (dataTypeName Yason.null)] := by
  constructor
  · rfl
  · unfold queryMatches
    rw [Selector.run.eq_def]
    simp [dataTypeName]

theorem c2_witness :
    rootless_tail [Step.root, Step.object (.key [97])] = true ∧
    funcless_tail [Step.root, Step.object (.key [97])] = true ∧
    PathExpression.query [Step.root, Step.object (.key [97])]
        (Yason.obj [([97], Yason.null)]) false =
      match queryMatches [Step.root, Step.object (.key [97])]
          (Yason.obj [([97], Yason.null)]) with
      | [] => .ok .none
      | [v] => .ok (.value v)
      | _ :: _ :: _ => .error .MultiValuesWithoutWrapper :=
  ⟨by decide, by decide, c2_no_wrapper_discipline _ _ (by decide) (by decide)⟩

/-- C3: for parser-shaped function-free paths, `exists` returns true exactly
when the wrapper-enabled `query` returns a non-empty `Values` result. -/
theorem c3_exists_query (steps : List Step) (d : Yason)
    (HR : rootless_tail steps = true) (HF : funcless_tail steps = true) :
    PathExpression.exists steps d = .ok true ↔
      ∃ vs, PathExpression.query steps d true = .ok (.values vs) ∧ vs ≠ [] := by
  obtain ⟨b, ext, htag, h1, h2, h3⟩ :=
    run_master steps HR HF (.one d 1) [] (by simp [QTask.idx])
  have hex : PathExpression.exists steps d = .ok (!ext.isEmpty) := by
    unfold PathExpression.exists
    rw [if_neg (by simp [has_method_eq_false HF]), h2 []]
  have hq : PathExpression.query steps d true =
      if ext.isEmpty then .ok .none else .ok (.values ext) := by
    unfold PathExpression.query
    rw [if_neg (by simp), h1 []]
    simp only [Bool.true_eq_false, if_false, has_method_count_eq_false HF, List.nil_append]
    rcases ext with _ | ⟨v, ext⟩
    · simp
    · simp
  rw [hex, hq]
  rcases ext with _ | ⟨v, ext⟩
  · simp
  · simp

theorem c3_witness :
    rootless_tail [Step.root, Step.object (.key [97])] = true ∧
    funcless_tail [Step.root, Step.object (.key [97])] = true ∧
    (PathExpression.exists [Step.root, Step.object (.key [97])]
        (Yason.obj [([97], Yason.null)]) = .ok true ↔
      ∃ vs, PathExpression.query [Step.root, Step.object (.key [97])]
          (Yason.obj [([97], Yason.null)]) true = .ok (.values vs) ∧ vs ≠ []) :=
  ⟨by decide, by decide, c3_exists_query _ _ (by decide) (by decide)⟩

/-- The spec's resolution of a range endpoint against an array whose last
valid index is `len - 1`, over ℤ so that an over-large `last-k` offset goes
negative instead of saturating. -/
def range_spec_resolve (len : Nat) : SingleIndex → Int
  | .index n => (n : Int)
  | .last k => ((len - 1 : Nat) : Int) - (k : Int)

/-- The spec's formula for membership of index `i` in the range `[a to b]`
over an array of length `len`: the closed interval
`[min(a,b), min(max(a,b), len-1)]` after resolution. -/
def range_spec_mem (a b : SingleIndex) (len i : Nat) : Prop :=
  min (range_spec_resolve len a) (range_spec_resolve len b) ≤ (i : Int) ∧
  (i : Int) ≤ min (max (range_spec_resolve len a) (range_spec_resolve len b))
    ((len - 1 : Nat) : Int)

theorem exists_ite_some_iff {c : Prop} [Decidable c] {q : Nat × Nat} {P : Nat × Nat → Prop} :
    (∃ p, (if c then some q else none) = some p ∧ P p) ↔ (c ∧ P q) := by
  split_ifs with h
  · simp [h]
  · simp [h]

theorem find_range_iff (a b : SingleIndex) (len : Nat) (hlen : 0 < len) (i : Nat) :
    (∃ p, find_range a b (len - 1) = some p ∧ p.1 ≤ i ∧ i ≤ p.2) ↔
      range_spec_mem a b len i := by
  rcases a with n1 | m1 <;> rcases b with n2 | m2 <;>
    simp only [find_range, orderPair, find_range_by_index, find_range_by_last,
      range_spec_mem, range_spec_resolve, exists_ite_some_iff] <;>
    split_ifs <;> dsimp only <;> omega

/-- C4: (1) for a non-empty array the range step's index set computed by
`find_range` is exactly the spec's closed interval
`[min(a,b), min(max(a,b), len-1)]` with `last-k` endpoints resolved against
`len-1`; (2) on a zero-length array the range matcher returns no match (and,
there being no subtraction on `Nat` below zero, no underflow); (3) on a
non-array value the relaxed match fires exactly when the normalised interval
contains index 0 (singleton resolution, len = 1). -/
theorem c4_range_semantics :
    (∀ (a b : SingleIndex) (len : Nat), 0 < len → ∀ i : Nat,
      ((∃ p, find_range a b (len - 1) = some p ∧ p.1 ≤ i ∧ i ≤ p.2) ↔
        range_spec_mem a b len i)) ∧
    (∀ (steps : List Step) (i : Nat) (a b : SingleIndex) (ww fe : Bool)
      (buf : List Yason) (hi : i < steps.length),
      steps[i] = Step.array (.range a b) →
      Selector.run steps ww fe (.one (Yason.arr []) i) buf = .ok (false, buf)) ∧
    (∀ a b : SingleIndex,
      non_array_range_step_relaxed_match a b = true ↔ range_spec_mem a b 1 0) := by
  refine ⟨fun a b len hlen i => find_range_iff a b len hlen i, ?_, ?_⟩
  · intro steps i a b ww fe buf hi hs
    rw [Selector.run.eq_def]
    simp only [hs, dif_pos hi, List.length_nil, if_pos rfl, if_true]
  · intro a b
    have h := find_range_iff a b 1 (by omega) 0
    simp only [Nat.sub_self] at h
    rw [← h]
    unfold non_array_range_step_relaxed_match
    rcases hfr : find_range a b 0 with _ | p
    · simp
    · simp only [Option.some.injEq]
      constructor
      · intro hb
        exact ⟨p, rfl, by simpa using hb, by omega⟩
      · rintro ⟨q, hq, h1, h2⟩
        subst hq
        simpa using h1

theorem c4_witness :
    (0 < 3 ∧
      ((∃ p, find_range (.index 1) (.last 0) 2 = some p ∧ p.1 ≤ 2 ∧ 2 ≤ p.2) ↔
        range_spec_mem (.index 1) (.last 0) 3 2)) ∧
    (1 < ([Step.root, Step.array (.range (.index 0) (.index 2))] : List Step).length ∧
      Selector.run [Step.root, Step.array (.range (.index 0) (.index 2))] true false
        (.one (Yason.arr []) 1) [] = .ok (false, [])) ∧
    (non_array_range_step_relaxed_match (.index 0) (.index 2) = true ↔
      range_spec_mem (.index 0) (.index 2) 1 0) :=
  ⟨⟨by decide, c4_range_semantics.1 (.index 1) (.last 0) 3 (by decide) 2⟩,
   ⟨by decide, c4_range_semantics.2.1 [Step.root, Step.array (.range (.index 0) (.index 2))]
      1 (.index 0) (.index 2) true false [] (by decide) (by decide)⟩,
   c4_range_semantics.2.2 (.index 0) (.index 2)⟩
